import Mathlib

/-!
# Verification of PyWebScrapBook's scrapbook core

Shallow embedding of the scrapbook book handler (`webscrapbook/scrapbook/book.py`),
the fulltext cache generator (`webscrapbook/scrapbook/cache.py`) and the file lock
(`webscrapbook/scrapbook/host.py`), together with theorems settling the testable
properties of the specification.

Python `dict`s are modelled as insertion-ordered association lists with distinct
keys (CPython guarantees insertion order); machine-level concerns (actual file
descriptors, the `re`/`json`/`lxml` library internals) are modelled as explicit
parameters or abstract page contents, as documented at each definition.
-/

set_option maxHeartbeats 1600000

namespace PyWSB

/-- A Python `dict` with `String` keys: an insertion-ordered association list.
All invariants (key distinctness) are carried as hypotheses where needed. -/
abbrev Dict (α : Type) := List (String × α)

namespace Dict

/-- The key list of a dict, in insertion order. -/
def keys (d : Dict α) : List String := d.map Prod.fst

/-- Python `k in d`. -/
def hasKey (d : Dict α) (k : String) : Bool := (keys d).contains k

/-- Python `d.get(k)` / `d[k]`: first binding wins (keys are unique anyway). -/
def getVal (d : Dict α) (k : String) : Option α :=
  match d with
  | [] => none
  | (k', v) :: rest => if k' = k then some v else getVal rest k

/-- Python `d[k] = v`: overwrite the existing binding in place (keys are
unique, so at most one), else append. -/
def set (d : Dict α) (k : String) (v : α) : Dict α :=
  match d with
  | [] => [(k, v)]
  | (k', v') :: rest => if k' = k then (k, v) :: rest else (k', v') :: set rest k v

/-- Python `del d[k]` (no-op when the key is absent, callers guard it). -/
def erase (d : Dict α) (k : String) : Dict α := d.filter (fun p => p.1 ≠ k)

/-- Python `d.update(e)`: assign every binding of `e` into `d`, in order. -/
def updateWith (d e : Dict α) : Dict α := e.foldl (fun acc p => set acc p.1 p.2) d

@[simp] theorem keys_nil : keys ([] : Dict α) = [] := rfl

@[simp] theorem keys_cons (p : String × α) (d : Dict α) :
    keys (p :: d) = p.1 :: keys d := rfl

@[simp] theorem keys_append (d e : Dict α) : keys (d ++ e) = keys d ++ keys e := by
  simp [keys]

theorem hasKey_iff (d : Dict α) (k : String) : hasKey d k = true ↔ k ∈ keys d := by
  simp [hasKey]

@[simp] theorem hasKey_nil (k : String) : hasKey ([] : Dict α) k = false := rfl

theorem hasKey_cons (p : String × α) (d : Dict α) (k : String) :
    hasKey (p :: d) k = (p.1 == k || hasKey d k) := by
  have hb : (k == p.1) = (p.1 == k) := by
    by_cases h : p.1 = k
    · simp [h]
    · have h2 : ¬ k = p.1 := fun x => h x.symm
      simp [h, h2]
  simp only [hasKey, keys_cons, List.contains_cons, hb]

theorem keys_set (d : Dict α) (k : String) (v : α) :
    keys (set d k v) = if hasKey d k then keys d else keys d ++ [k] := by
  induction d with
  | nil => simp [set]
  | cons p d ih =>
    obtain ⟨k', v'⟩ := p
    by_cases hk : k' = k
    · subst hk
      simp [set, hasKey_cons]
    · simp only [set, if_neg hk, keys_cons, ih, hasKey_cons]
      have : (k' == k) = false := by simp [hk]
      rw [this]
      by_cases hd : hasKey d k <;> simp [hd]

theorem set_eq_append (d : Dict α) (k : String) (v : α) (h : ¬ k ∈ keys d) :
    set d k v = d ++ [(k, v)] := by
  induction d with
  | nil => simp [set]
  | cons p d ih =>
    obtain ⟨k', v'⟩ := p
    simp only [keys_cons, List.mem_cons] at h
    push_neg at h
    simp only [set, if_neg (fun hh : k' = k => h.1 hh.symm), List.cons_append]
    rw [ih h.2]

theorem getVal_eq_none_iff (d : Dict α) (k : String) :
    getVal d k = none ↔ ¬ k ∈ keys d := by
  induction d with
  | nil => simp [getVal]
  | cons p d ih =>
    obtain ⟨k', v'⟩ := p
    by_cases h : k' = k <;> simp [getVal, h, ih] <;> tauto

theorem hasKey_eq_false_iff (d : Dict α) (k : String) :
    hasKey d k = false ↔ getVal d k = none := by
  rw [getVal_eq_none_iff, ← hasKey_iff]
  simp

theorem hasKey_eq_true_iff (d : Dict α) (k : String) :
    hasKey d k = true ↔ ∃ v, getVal d k = some v := by
  constructor
  · intro h
    match hv : getVal d k with
    | some v => exact ⟨v, rfl⟩
    | none => rw [← hasKey_eq_false_iff] at hv; simp [h] at hv
  · rintro ⟨v, hv⟩
    by_contra hb
    rw [Bool.not_eq_true, hasKey_eq_false_iff] at hb
    simp [hb] at hv

@[simp] theorem getVal_set (d : Dict α) (k : String) (v : α) (q : String) :
    getVal (set d k v) q = if k = q then some v else getVal d q := by
  induction d with
  | nil => by_cases h : k = q <;> simp [set, getVal, h]
  | cons p d ih =>
    obtain ⟨k', v'⟩ := p
    by_cases hk : k' = k
    · subst hk
      by_cases hq : k' = q <;> simp [set, getVal, hq]
    · by_cases hq : k' = q
      · have hkq : ¬ k = q := fun h => hk (hq.trans h.symm)
        have hqk : ¬ q = k := fun h => hkq h.symm
        simp [set, getVal, hk, hq, hkq, hqk]
      · simp [set, getVal, hk, hq, ih]

theorem erase_cons (k' : String) (v' : α) (d : Dict α) (k : String) :
    erase ((k', v') :: d) k = if k' = k then erase d k else (k', v') :: erase d k := by
  by_cases h : k' = k <;> simp [erase, List.filter_cons, h]

@[simp] theorem getVal_erase (d : Dict α) (k : String) (q : String) :
    getVal (erase d k) q = if k = q then none else getVal d q := by
  induction d with
  | nil => simp [erase, getVal]
  | cons p d ih =>
    obtain ⟨k', v'⟩ := p
    by_cases hk : k' = k
    · subst hk
      rw [erase_cons, if_pos rfl, ih]
      by_cases hq : k' = q <;> simp [getVal, hq]
    · rw [erase_cons, if_neg hk]
      by_cases hq : k' = q
      · have hkq : ¬ k = q := fun h => hk (hq.trans h.symm)
        simp [getVal, hq, hkq]
      · simp [getVal, hq, ih]

theorem keys_erase (d : Dict α) (k : String) :
    keys (erase d k) = (keys d).filter (fun q => q ≠ k) := by
  induction d with
  | nil => rfl
  | cons p d ih =>
    obtain ⟨k', v'⟩ := p
    by_cases hk : k' = k <;> simp [erase, keys, List.filter_cons, hk] at * <;> exact ih

theorem hasKey_set (d : Dict α) (k : String) (v : α) (q : String) :
    hasKey (set d k v) q = (hasKey d q || (q == k)) := by
  by_cases hq : hasKey (set d k v) q
  · rw [hq]
    rw [hasKey_iff, keys_set] at hq
    by_cases hd : hasKey d k
    · rw [if_pos hd] at hq
      simp [(hasKey_iff d q).mpr hq]
    · rw [if_neg hd, List.mem_append] at hq
      rcases hq with hq | hq
      · simp [(hasKey_iff d q).mpr hq]
      · simp at hq
        simp [hq]
  · rw [Bool.not_eq_true] at hq
    rw [hq]
    rw [← Bool.not_eq_true, hasKey_iff, keys_set] at hq
    by_cases hd : hasKey d k
    · rw [if_pos hd] at hq
      have h1 : hasKey d q = false := by
        rw [← Bool.not_eq_true, hasKey_iff]; exact hq
      have h2 : ¬ q = k := by
        intro h; subst h; exact hq ((hasKey_iff d q).mp hd)
      simp [h1, h2]
    · rw [if_neg hd, List.mem_append] at hq
      push_neg at hq
      have h1 : hasKey d q = false := by
        rw [← Bool.not_eq_true, hasKey_iff]; exact hq.1
      have h2 : ¬ q = k := by
        intro h; exact hq.2 (by simp [h])
      simp [h1, h2]

theorem keys_length (d : Dict α) : (keys d).length = d.length := by
  simp [keys]

theorem nodup_keys_set (d : Dict α) (k : String) (v : α) (h : (keys d).Nodup) :
    (keys (set d k v)).Nodup := by
  rw [keys_set]
  by_cases hd : hasKey d k
  · simpa [hd]
  · rw [if_neg hd]
    have : ¬ k ∈ keys d := fun hm => absurd ((hasKey_iff d k).mpr hm) (by simp [hd])
    simp [List.nodup_append, h, this]

theorem keys_set_prefix (d : Dict α) (k : String) (v : α) :
    keys d <+: keys (set d k v) := by
  rw [keys_set]
  by_cases hd : hasKey d k
  · simp [hd]
  · simp only [hd, Bool.false_eq_true, if_false]
    exact ⟨[k], rfl⟩

theorem length_set (d : Dict α) (k : String) (v : α) :
    (set d k v).length = if hasKey d k then d.length else d.length + 1 := by
  have h2 : (keys (set d k v)).length = (set d k v).length := keys_length _
  rw [keys_set] at h2
  by_cases hd : hasKey d k
  · rw [if_pos hd]
    rw [if_pos hd] at h2
    rw [← h2, keys_length]
  · rw [if_neg hd]
    rw [if_neg hd] at h2
    rw [← h2]
    simp [keys_length]

end Dict

/-! ## Tree Store (`webscrapbook/scrapbook/book.py`)

`Book.save_meta_files`, `Book.save_toc_files` and `Book.save_fulltext_files`
share the same sharding loop: iterate the mapping's records in insertion order,
accumulate a per-kind running size starting from `1`, write out the current
shard whenever the running size reaches the kind's threshold (resetting the
size to `0`), and write a final shard afterwards only when the running size is
nonzero (Python `if size:`).  `saveTreeGo` embeds that loop; the result is the
list of shard contents written to `{name}.js`, `{name}1.js`, … in order. -/

def SAVE_META_THRESHOLD : Nat := 256 * 1024

def SAVE_TOC_THRESHOLD : Nat := 4 * 1024 * 1024

def SAVE_FULLTEXT_THRESHOLD : Nat := 128 * 1024 * 1024

/-- The shared sharding loop of `Book.save_*_files` (state: remaining records,
running `size`, current shard `cur`). -/
def saveTreeGo (threshold : Nat) (szFn : α → Nat) :
    Dict α → Nat → Dict α → List (Dict α)
  | [], size, cur => if size ≠ 0 then [cur] else []
  | (k, v) :: rest, size, cur =>
    let cur' := Dict.set cur k v
    let size' := size + szFn v
    if threshold ≤ size' then cur' :: saveTreeGo threshold szFn rest 0 []
    else saveTreeGo threshold szFn rest size' cur'

/-- `Book.save_*_files`, generically over the per-record size function: the
loop starts with `i = 0`, `size = 1`, an empty current shard. -/
def save_tree_files (threshold : Nat) (szFn : α → Nat) (m : Dict α) : List (Dict α) :=
  saveTreeGo threshold szFn m 1 []

/-- `save_meta_files` sizing: `size += 1` per record. -/
def metaSize (_ : α) : Nat := 1

/-- `save_toc_files` sizing: `size += 1 + len(toc[id])`. -/
def tocSize (children : List String) : Nat := 1 + children.length

/-- `save_fulltext_files` sizing: `size += len(fulltext[id][path]['content'])`
summed over the record's paths. -/
def fulltextSize (rec : Dict String) : Nat := (rec.map (fun p => p.2.length)).sum

/-- `Book.save_meta_files` (shard contents only; pruning modelled separately). -/
def save_meta_files (meta : Dict α) : List (Dict α) :=
  save_tree_files SAVE_META_THRESHOLD metaSize meta

/-- `Book.save_toc_files`. -/
def save_toc_files (toc : Dict (List String)) : List (Dict (List String)) :=
  save_tree_files SAVE_TOC_THRESHOLD tocSize toc

/-- `Book.save_fulltext_files`. -/
def save_fulltext_files (ft : Dict (Dict String)) : List (Dict (Dict String)) :=
  save_tree_files SAVE_FULLTEXT_THRESHOLD fulltextSize ft

/-- `Book.load_tree_files` merging: `data = {}`, then `data.update(d)` for each
shard in shard order (later-shard-wins). -/
def load_tree_files_merge (shards : List (Dict α)) : Dict α :=
  shards.foldl Dict.updateWith []

/-- The shards written by the sharding loop concatenate back to the input
mapping, provided every record has positive size (true for the meta and toc
size functions; for fulltext only when no record after the last shard flush
has zero total content length). -/
theorem flatten_saveTreeGo (threshold : Nat) (szFn : α → Nat) :
    ∀ (m : Dict α) (size : Nat) (cur : Dict α),
      (Dict.keys cur ++ Dict.keys m).Nodup →
      (size = 0 → cur = []) →
      (∀ p ∈ m, 1 ≤ szFn p.2) →
      (saveTreeGo threshold szFn m size cur).flatten = cur ++ m
  | [], size, cur, _, hinv, _ => by
    by_cases hs : size = 0
    · simp [saveTreeGo, hs, hinv hs]
    · simp [saveTreeGo, hs]
  | (k, v) :: rest, size, cur, hnd, _, hpos => by
    have hk : ¬ k ∈ Dict.keys cur := by
      intro hmem
      have := List.disjoint_of_nodup_append hnd hmem
      simp at this
    have hset : Dict.set cur k v = cur ++ [(k, v)] := Dict.set_eq_append cur k v hk
    have hnd' : (Dict.keys (cur ++ [(k, v)]) ++ Dict.keys rest).Nodup := by
      simpa [List.append_assoc] using hnd
    have hvpos : 1 ≤ szFn v := hpos (k, v) (by simp)
    rw [saveTreeGo]
    simp only [hset]
    by_cases hth : threshold ≤ size + szFn v
    · have hrec := flatten_saveTreeGo threshold szFn rest 0 []
        (by simpa using hnd'.of_append_right)
        (fun _ => rfl)
        (fun p hp => hpos p (List.mem_cons_of_mem _ hp))
      rw [if_pos hth, List.flatten_cons, hrec]
      simp
    · have hrec := flatten_saveTreeGo threshold szFn rest (size + szFn v) (cur ++ [(k, v)])
        hnd' (by omega) (fun p hp => hpos p (List.mem_cons_of_mem _ hp))
      rw [if_neg hth, hrec]
      simp

/-- Later-shard-wins merging degenerates to concatenation when the key sets are
disjoint (every assignment is of a fresh key, hence an append). -/
theorem updateWith_eq_append (d e : Dict α) (hnd : (Dict.keys d ++ Dict.keys e).Nodup) :
    Dict.updateWith d e = d ++ e := by
  induction e generalizing d with
  | nil => simp [Dict.updateWith]
  | cons p e ih =>
    obtain ⟨k, v⟩ := p
    have hk : ¬ k ∈ Dict.keys d := by
      intro hmem
      have := List.disjoint_of_nodup_append hnd hmem
      simp at this
    have hstep : Dict.updateWith d ((k, v) :: e) = Dict.updateWith (d ++ [(k, v)]) e := by
      simp [Dict.updateWith, Dict.set_eq_append d k v hk]
    rw [hstep, ih (d ++ [(k, v)]) (by simpa [List.append_assoc] using hnd)]
    simp

/-- Folding later-shard-wins updates over globally distinct keys concatenates. -/
theorem foldl_updateWith_eq (shards : List (Dict α)) :
    ∀ (acc : Dict α), (Dict.keys (acc ++ shards.flatten)).Nodup →
      shards.foldl Dict.updateWith acc = acc ++ shards.flatten := by
  induction shards with
  | nil => intro acc _; simp
  | cons s shards ih =>
    intro acc hacc
    have hacc' : ((Dict.keys acc ++ Dict.keys s) ++ Dict.keys shards.flatten).Nodup := by
      simpa [Dict.keys, List.append_assoc] using hacc
    rw [List.foldl_cons, updateWith_eq_append acc s hacc'.of_append_left]
    have h3 : (Dict.keys ((acc ++ s) ++ shards.flatten)).Nodup := by
      simpa [Dict.keys, List.append_assoc] using hacc
    rw [ih (acc ++ s) h3]
    simp

/-- Loading a shard list whose keys are globally distinct yields their
concatenation. -/
theorem load_tree_files_merge_eq_flatten (shards : List (Dict α))
    (hnd : (Dict.keys shards.flatten).Nodup) :
    load_tree_files_merge shards = shards.flatten := by
  unfold load_tree_files_merge
  rw [foldl_updateWith_eq shards [] (by simpa using hnd)]
  simp

/-- Save/load round-trip of the tree store, for any mapping with distinct keys
all of whose records have positive size under the kind's size function.  The
shards also partition the keys in mapping order (`flatten` equals the input). -/
theorem load_save_roundtrip (threshold : Nat) (szFn : α → Nat) (m : Dict α)
    (hnd : (Dict.keys m).Nodup) (hpos : ∀ p ∈ m, 1 ≤ szFn p.2) :
    load_tree_files_merge (save_tree_files threshold szFn m) = m ∧
      (save_tree_files threshold szFn m).flatten = m := by
  have hflat : (save_tree_files threshold szFn m).flatten = m :=
    flatten_saveTreeGo threshold szFn m 1 [] (by simpa using hnd) (by omega) hpos
  refine ⟨?_, hflat⟩
  rw [load_tree_files_merge_eq_flatten _ (by rw [hflat]; exact hnd), hflat]

/-- A fulltext record whose single page content has exactly
`SAVE_FULLTEXT_THRESHOLD - 1` characters, so that the running size (which
starts at 1) hits the threshold exactly after this record. -/
def c1BigContent : String := String.mk (List.replicate (SAVE_FULLTEXT_THRESHOLD - 1) 'a')

/-- A fulltext mapping on which the save/load round-trip fails: after record
`"a"` forces a shard flush (resetting the running size to 0), record `"b"`
contributes size 0, so the final `if size:` write in `save_fulltext_files` is
skipped and record `"b"` is silently dropped. -/
def c1FailingInput : Dict (Dict String) := [("a", [("p", c1BigContent)]), ("b", [])]

theorem c1BigContent_length : c1BigContent.length = SAVE_FULLTEXT_THRESHOLD - 1 := by
  simp [c1BigContent, String.length]

theorem c1_fulltextSize_a : fulltextSize [("p", c1BigContent)] = SAVE_FULLTEXT_THRESHOLD - 1 := by
  simp [fulltextSize, c1BigContent_length]

/-- C1 (code bug): saving `c1FailingInput` writes a single shard containing
only record `"a"`; loading it back misses record `"b"`, so the round-trip
claimed by the specification fails on this input. -/
theorem c1_roundtrip_failure :
    save_fulltext_files c1FailingInput = [[("a", [("p", c1BigContent)])]] ∧
      load_tree_files_merge (save_fulltext_files c1FailingInput)
        = [("a", [("p", c1BigContent)])] ∧
      load_tree_files_merge (save_fulltext_files c1FailingInput) ≠ c1FailingInput := by
  have hth : SAVE_FULLTEXT_THRESHOLD ≤ 1 + fulltextSize [("p", c1BigContent)] := by
    rw [c1_fulltextSize_a]
    norm_num [SAVE_FULLTEXT_THRESHOLD]
  have hth2 : ¬ SAVE_FULLTEXT_THRESHOLD ≤ 0 + fulltextSize ([] : Dict String) := by
    norm_num [fulltextSize, SAVE_FULLTEXT_THRESHOLD]
  have hsave : save_fulltext_files c1FailingInput = [[("a", [("p", c1BigContent)])]] := by
    unfold save_fulltext_files save_tree_files c1FailingInput
    rw [saveTreeGo]
    simp only [if_pos hth]
    rw [saveTreeGo]
    simp only [if_neg hth2]
    rw [saveTreeGo]
    simp [Dict.set, Dict.hasKey, Dict.keys, fulltextSize]
  refine ⟨hsave, ?_, ?_⟩
  · rw [hsave]
    simp [load_tree_files_merge, Dict.updateWith, Dict.set, Dict.hasKey, Dict.keys]
  · rw [hsave]
    intro h
    have hlen := congrArg List.length h
    simp [load_tree_files_merge, Dict.updateWith, Dict.set, Dict.hasKey, Dict.keys,
      c1FailingInput] at hlen

/-! ### Shard pruning

After writing shards `0..k`, `save_*_files` runs
`while True: try: os.remove(get_tree_file(name, i)) except FileNotFoundError: break; i += 1`
starting at `i = k + 1`.  We model the set of existing shard indices as a list
of naturals; `pruneGo` embeds the probe loop (the fuel `files.length + 1`
always suffices because the removed run is made of distinct existing indices). -/

/-- The removal probe loop: starting at index `i`, remove existing shard files
upward and stop at the first missing index. -/
def pruneGo (files : List Nat) : Nat → Nat → List Nat
  | _, 0 => []
  | i, Nat.succ fuel => if files.contains i then i :: pruneGo files (i + 1) fuel else []

/-- The indices removed by the `while True: os.remove …` loop of
`save_*_files`, starting the probe at `iStart`. -/
def removeUnusedTreeFiles (files : List Nat) (iStart : Nat) : List Nat :=
  pruneGo files iStart (files.length + 1)

/-- A whole save operation: the shards written (indices `0..n-1`) and the
previously existing shard indices removed by the trailing probe loop
(probing upward from `n`). -/
def saveAndPrune (threshold : Nat) (szFn : α → Nat) (m : Dict α) (existing : List Nat) :
    List (Dict α) × List Nat :=
  let shards := save_tree_files threshold szFn m
  (shards, removeUnusedTreeFiles existing shards.length)

theorem mem_pruneGo (files : List Nat) :
    ∀ (fuel i j : Nat),
      j ∈ pruneGo files i fuel ↔
        i ≤ j ∧ j < i + fuel ∧ ∀ t, i ≤ t → t ≤ j → files.contains t = true := by
  intro fuel
  induction fuel with
  | zero =>
    intro i j
    simp only [pruneGo, List.not_mem_nil, false_iff]
    intro h
    omega
  | succ fuel ih =>
    intro i j
    by_cases hc : files.contains i
    · rw [pruneGo, if_pos hc, List.mem_cons, ih (i + 1) j]
      constructor
      · rintro (rfl | ⟨h1, h2, h3⟩)
        · exact ⟨le_refl j, by omega, fun t ht1 ht2 => by
            have : t = j := by omega
            subst this; exact hc⟩
        · exact ⟨by omega, by omega, fun t ht1 ht2 => by
            by_cases hti : t = i
            · subst hti; exact hc
            · exact h3 t (by omega) ht2⟩
      · rintro ⟨h1, h2, h3⟩
        by_cases hji : j = i
        · exact Or.inl hji
        · exact Or.inr ⟨by omega, by omega, fun t ht1 ht2 => h3 t (by omega) ht2⟩
    · rw [pruneGo, if_neg hc]
      simp only [List.not_mem_nil, false_iff]
      rintro ⟨h1, _, h3⟩
      exact hc (h3 i (le_refl i) h1)

/-- With distinct existing indices, the probe's fuel never runs out: the
removed indices are exactly the maximal contiguous run of existing indices
starting at the probe start. -/
theorem mem_removeUnusedTreeFiles (files : List Nat) (i j : Nat) :
    j ∈ removeUnusedTreeFiles files i ↔
      i ≤ j ∧ ∀ t, i ≤ t → t ≤ j → files.contains t = true := by
  rw [removeUnusedTreeFiles, mem_pruneGo]
  constructor
  · rintro ⟨h1, _, h3⟩
    exact ⟨h1, h3⟩
  · rintro ⟨h1, h3⟩
    refine ⟨h1, ?_, h3⟩
    have hsub : List.range' i (j - i + 1) ⊆ files := by
      intro x hx
      rw [List.mem_range'_1] at hx
      have := h3 x (by omega) (by omega)
      simpa using this
    have hlen := ((List.nodup_range' (s := i) (n := j - i + 1)).subperm hsub).length_le
    rw [List.length_range'] at hlen
    omega

/-- C5: after `save` writes shards `0..k`, the probe starts at `k+1` and
removes exactly the contiguous run of existing shard indices starting there;
an existing shard index separated by a gap is left untouched. -/
theorem c5_shard_pruning (threshold : Nat) (szFn : α → Nat) (m : Dict α)
    (existing : List Nat) (j : Nat) :
    j ∈ (saveAndPrune threshold szFn m existing).2 ↔
      (saveAndPrune threshold szFn m existing).1.length ≤ j ∧
        ∀ t, (saveAndPrune threshold szFn m existing).1.length ≤ t → t ≤ j →
          existing.contains t = true :=
  mem_removeUnusedTreeFiles existing _ j

/-- Concrete check of the specification's own example: shards 0,1,2,4 exist;
a save producing only shard 0 starts the probe at 1, removes 1 and 2, and
leaves the orphaned shard 4 behind the gap at 3 untouched. -/
theorem shard_pruning_example :
    (saveAndPrune SAVE_META_THRESHOLD metaSize [("x", 0)] [0, 1, 2, 4]).2 = [1, 2] := by
  decide

/-! ### Tree-file loading and its error taxonomy

`Book.load_tree_file` opens the file (re-raising `FileNotFoundError`, turning
any other `OSError` into `TreeFileIOError`), matches the whole text against
`REGEX_TREE_FILE_PREFIX` (no match → `TreeFileMalformedError` naming the file),
and JSON-decodes the captured group (decode failure → `TreeFileMalformedError`
naming the file).  The Python `re` engine and `json.loads` are standard-library
primitives external to this repository; they are passed in as parameters
`matchEnvelope` (the capture of group 1, `none` when the pattern does not
match) and `parseJson` (`none` on a decode error). -/

/-- What the filesystem yields when a tree file is opened. -/
inductive FileReadRes where
  | absent
  | ioFailure
  | content (text : String)
  deriving DecidableEq, Repr

/-- Result of `Book.load_tree_file` on one file. -/
inductive LoadOneRes (α : Type) where
  | ok (d : Dict α)
  | fileNotFound
  | ioErr
  | malformed (file : String)
  deriving DecidableEq, Repr

/-- `Book.get_tree_file`: shard 0 is `name.js`, shard `n ≥ 1` is `name{n}.js`
(Python `f'{name}{index or ""}.js'`). -/
def get_tree_file (name : String) (index : Nat) : String :=
  name ++ (if index = 0 then "" else toString index) ++ ".js"

/-- `Book.load_tree_file`. -/
def load_tree_file (matchEnvelope : String → Option String)
    (parseJson : String → Option (Dict α)) (file : String) (r : FileReadRes) :
    LoadOneRes α :=
  match r with
  | .absent => .fileNotFound
  | .ioFailure => .ioErr
  | .content s =>
    match matchEnvelope s with
    | none => .malformed file
    | some body =>
      match parseJson body with
      | none => .malformed file
      | some d => .ok d

/-- Result of `Book.load_tree_files` over the whole shard sequence. -/
inductive LoadAllRes (α : Type) where
  | ok (d : Dict α)
  | fileNotFound
  | ioErr
  | malformed (file : String)
  | fuelOut
  deriving DecidableEq, Repr

/-- `Book.load_tree_files`: iterate shards `0,1,2,…` while
`os.path.exists` holds (`fs i = none` models a missing shard file, which stops
the enumeration and is not an error), merging via `data.update(d)`. -/
def load_tree_files_go (matchEnvelope : String → Option String)
    (parseJson : String → Option (Dict α)) (name : String)
    (fs : Nat → Option FileReadRes) : Nat → Nat → Dict α → LoadAllRes α
  | 0, _, _ => .fuelOut
  | Nat.succ fuel, i, acc =>
    match fs i with
    | none => .ok acc
    | some r =>
      match load_tree_file matchEnvelope parseJson (get_tree_file name i) r with
      | .ok d => load_tree_files_go matchEnvelope parseJson name fs fuel (i + 1)
          (Dict.updateWith acc d)
      | .fileNotFound => .fileNotFound
      | .ioErr => .ioErr
      | .malformed f => .malformed f

/-- `Book.load_tree_files name` with enough fuel. -/
def load_tree_files_model (matchEnvelope : String → Option String)
    (parseJson : String → Option (Dict α)) (name : String)
    (fs : Nat → Option FileReadRes) (fuel : Nat) : LoadAllRes α :=
  load_tree_files_go matchEnvelope parseJson name fs fuel 0 []

/-- The merge of the parsed shard dicts `docs 0, …, docs (n-1)`. -/
def mergeDocs (docs : Nat → Dict α) (n : Nat) : Dict α :=
  ((List.range n).map docs).foldl Dict.updateWith []

theorem load_tree_files_go_ok (matchEnvelope : String → Option String)
    (parseJson : String → Option (Dict α)) (name : String)
    (fs : Nat → Option FileReadRes) (docs : Nat → Dict α) :
    ∀ (n start fuel : Nat) (acc : Dict α),
      (∀ i, i < n → ∃ r, fs (start + i) = some r ∧
        load_tree_file matchEnvelope parseJson (get_tree_file name (start + i)) r
          = .ok (docs (start + i))) →
      fs (start + n) = none →
      n < fuel →
      load_tree_files_go matchEnvelope parseJson name fs fuel start acc
        = .ok (((List.range n).map (fun i => docs (start + i))).foldl Dict.updateWith acc) := by
  intro n
  induction n with
  | zero =>
    intro start fuel acc _ hend hfuel
    match fuel, hfuel with
    | Nat.succ fuel, _ =>
      rw [load_tree_files_go]
      simp only [Nat.add_zero] at hend
      rw [hend]
      simp
  | succ n ih =>
    intro start fuel acc hok hend hfuel
    match fuel, hfuel with
    | Nat.succ fuel, hfuel =>
      obtain ⟨r, hr, hload⟩ := hok 0 (Nat.succ_pos n)
      rw [load_tree_files_go]
      simp only [Nat.add_zero] at hr hload
      rw [hr]
      simp only [hload]
      have hok' : ∀ i, i < n → ∃ r, fs (start + 1 + i) = some r ∧
          load_tree_file matchEnvelope parseJson (get_tree_file name (start + 1 + i)) r
            = .ok (docs (start + 1 + i)) := by
        intro i hi
        have := hok (i + 1) (by omega)
        simpa [Nat.add_assoc, Nat.add_comm 1 i] using this
      have hend' : fs (start + 1 + n) = none := by
        have : start + 1 + n = start + (n + 1) := by omega
        rw [this]; exact hend
      rw [ih (start + 1) fuel (Dict.updateWith acc (docs start)) hok' hend' (by omega)]
      congr 1
      rw [List.range_succ_eq_map]
      simp only [List.map_cons, List.map_map, List.foldl_cons, Nat.add_zero]
      congr 1
      apply List.map_congr_left
      intro i _
      simp only [Function.comp_apply]
      congr 1
      omega

/-- C6: the tree-file load error taxonomy.
1. On readable content, `load_tree_file` reports the malformed-tree-file error
   (naming the offending file) exactly when the envelope pattern fails to match
   or the captured span fails to parse as JSON.
2. An I/O failure other than file-not-found reports the tree-file I/O error.
3. A genuinely absent shard file is not an error from `load_tree_files`: the
   enumeration stops there and the merge of the existing, successfully parsed
   shards is returned (the empty mapping when no shard exists at all). -/
theorem c6_load_error_taxonomy (matchEnvelope : String → Option String)
    (parseJson : String → Option (Dict α)) (name : String) :
    (∀ (file s : String),
      load_tree_file matchEnvelope parseJson file (.content s) = .malformed file ↔
        (matchEnvelope s = none ∨
          ∃ body, matchEnvelope s = some body ∧ parseJson body = none)) ∧
    (∀ (file : String),
      load_tree_file (α := α) matchEnvelope parseJson file .ioFailure = .ioErr) ∧
    (∀ (fs : Nat → Option FileReadRes) (docs : Nat → Dict α) (n fuel : Nat),
      (∀ i, i < n → ∃ r, fs i = some r ∧
        load_tree_file matchEnvelope parseJson (get_tree_file name i) r = .ok (docs i)) →
      fs n = none →
      n < fuel →
      load_tree_files_model matchEnvelope parseJson name fs fuel = .ok (mergeDocs docs n)) := by
  refine ⟨?_, fun _ => rfl, ?_⟩
  · intro file s
    unfold load_tree_file
    match hm : matchEnvelope s with
    | none => simp [hm]
    | some body =>
      match hp : parseJson body with
      | none => simp [hm, hp]
      | some d => simp [hm, hp]
  · intro fs docs n fuel hok hend hfuel
    have := load_tree_files_go_ok matchEnvelope parseJson name fs docs n 0 fuel []
      (by intro i hi; simpa using hok i hi) (by simpa using hend) hfuel
    rw [load_tree_files_model, this]
    simp [mergeDocs]

/-- Envelope matcher for the C6 witness: accepts exactly the text `"W"` with
captured body `"B"`. -/
def c6wMatch : String → Option String := fun s => if s = "W" then some "B" else none

/-- JSON parser for the C6 witness: accepts exactly the body `"B"`. -/
def c6wJson : String → Option (Dict Nat) := fun b => if b = "B" then some [("k", 1)] else none

/-- Filesystem for the C6 witness: shard 0 exists with content `"W"`, shard 1
is absent. -/
def c6wFs : Nat → Option FileReadRes := fun i => if i = 0 then some (.content "W") else none

/-- C6 witness: with one well-formed shard present and shard 1 absent,
`load_tree_files` succeeds with the merge of the single shard. -/
theorem c6_load_error_taxonomy_witness :
    load_tree_files_model c6wMatch c6wJson "meta" c6wFs 2
      = .ok (mergeDocs (fun _ => [("k", 1)]) 1) :=
  (c6_load_error_taxonomy c6wMatch c6wJson "meta").2.2 c6wFs (fun _ => [("k", 1)]) 1 2
    (by
      intro i hi
      interval_cases i
      exact ⟨.content "W", rfl, rfl⟩)
    rfl
    (by norm_num)

/-! ## File Lock (`webscrapbook/scrapbook/host.py`, `FileLock.acquire`)

`acquire` computes `timeout_time = time.time() + timeout`, ensures the locks
directory exists, then loops: attempt `open(self.file, 'x')`; on
`FileExistsError` read the clock, fail with `LockTimeoutError` once the
deadline is reached, stat the lock file, and either retry immediately (file
vanished), fail with `LockGenerateError` (other stat failure), take over a
stale lock by `os.utime` in place, or sleep `poll_interval` and retry.

The filesystem and clock are modelled as oracles indexed by the loop
iteration.  Times are naturals.  The trace of filesystem actions is recorded;
note the model (like the source) has no remove/recreate action in `acquire` at
all — a stale takeover only touches the existing file's mtime. -/

/-- Outcome of the exclusive-create attempt `open(file, 'x')`. -/
inductive CreateRes where
  | created
  | alreadyExists
  | osFailure
  deriving DecidableEq, Repr

/-- Outcome of `os.stat(file).st_mtime`. -/
inductive StatRes where
  | mtimeIs (m : Nat)
  | vanished
  | osFailure
  deriving DecidableEq, Repr

/-- Outcome of `os.utime(file)`. -/
inductive UtimeRes where
  | ok
  | osFailure
  deriving DecidableEq, Repr

/-- Outcome of `os.makedirs(os.path.dirname(file))`. -/
inductive MakedirsRes where
  | ok
  | alreadyExists
  | osFailure
  deriving DecidableEq, Repr

/-- Environment oracles for one `acquire` call, indexed by loop iteration. -/
structure LockEnv where
  makedirs : MakedirsRes
  createAt : Nat → CreateRes
  clockAt : Nat → Nat
  statAt : Nat → StatRes
  utimeAt : Nat → UtimeRes

/-- Filesystem actions performed by `acquire` (for the frame property that a
stale takeover refreshes the mtime in place and never deletes/recreates). -/
inductive FsAct where
  | createAttempt
  | statAttempt
  | utimeTouch
  | sleepPoll
  deriving DecidableEq, Repr

/-- How one `acquire` call ends. -/
inductive AcqOutcome where
  | acquired
  | timeoutErr      -- LockTimeoutError
  | generateErr     -- LockGenerateError
  | regenerateErr   -- LockRegenerateError
  | nameErr         -- NameError: the makedirs handler's f-string reads the
                    -- undefined local `name` (host.py line 122)
  | spin            -- out of fuel (loop still running)
  deriving DecidableEq, Repr

/-- What one loop iteration decides. -/
inductive LockStepRes where
  | done (o : AcqOutcome)
  | retry
  deriving DecidableEq, Repr

/-- One iteration of the `while True` loop of `FileLock.acquire`. -/
def acquireStep (deadline stale : Nat) (env : LockEnv) (k : Nat) :
    LockStepRes × List FsAct :=
  match env.createAt k with
  | .created => (.done .acquired, [.createAttempt])
  | .osFailure => (.done .generateErr, [.createAttempt])
  | .alreadyExists =>
    let t := env.clockAt k
    if deadline ≤ t then (.done .timeoutErr, [.createAttempt])
    else
      match env.statAt k with
      | .vanished => (.retry, [.createAttempt, .statAttempt])
      | .osFailure => (.done .generateErr, [.createAttempt, .statAttempt])
      | .mtimeIs m =>
        if m + stale ≤ t then
          match env.utimeAt k with
          | .ok => (.done .acquired, [.createAttempt, .statAttempt, .utimeTouch])
          | .osFailure => (.done .regenerateErr, [.createAttempt, .statAttempt, .utimeTouch])
        else (.retry, [.createAttempt, .statAttempt, .sleepPoll])

/-- The acquire loop, iterating `acquireStep` from iteration `k` with `fuel`
iterations left. -/
def acquireGo (deadline stale : Nat) (env : LockEnv) : Nat → Nat → AcqOutcome × List FsAct
  | _, 0 => (.spin, [])
  | k, Nat.succ fuel =>
    match acquireStep deadline stale env k with
    | (.done o, acts) => (o, acts)
    | (.retry, acts) =>
      let r := acquireGo deadline stale env (k + 1) fuel
      (r.1, acts ++ r.2)

/-- `FileLock.acquire` (when the lock is not already held by this object):
deadline computation, `os.makedirs`, then the loop.  A `makedirs` failure other
than `FileExistsError` aborts — via `NameError`, because the error message
f-string references the undefined name `name` (host.py line 122). -/
def acquire (timeout stale startTime : Nat) (env : LockEnv) (fuel : Nat) :
    AcqOutcome × List FsAct :=
  match env.makedirs with
  | .osFailure => (.nameErr, [])
  | _ => acquireGo (startTime + timeout) stale env 0 fuel

/-- C8: timeout versus stale takeover.
1. When the exclusive create finds the file already existing, the iteration
   raises the timeout error exactly when the clock has reached the deadline.
2. Before the deadline, a lock whose mtime plus the stale duration has passed
   is taken over in place: the iteration succeeds and its filesystem trace is
   create-attempt, stat, mtime-touch — no delete/recreate action exists.
3. Before the deadline, a not-yet-stale lock makes the iteration sleep and
   retry.
4. Consequently, when every iteration finds a held, not-yet-stale lock, the
   first iteration whose clock reaches the deadline fails the whole acquire
   with the timeout error. -/
theorem c8_timeout_vs_stale_takeover (deadline stale : Nat) (env : LockEnv) :
    (∀ k, env.createAt k = .alreadyExists →
      ((acquireStep deadline stale env k).1 = .done .timeoutErr ↔
        deadline ≤ env.clockAt k)) ∧
    (∀ k m, env.createAt k = .alreadyExists → env.clockAt k < deadline →
      env.statAt k = .mtimeIs m → m + stale ≤ env.clockAt k → env.utimeAt k = .ok →
      acquireStep deadline stale env k
        = (.done .acquired, [.createAttempt, .statAttempt, .utimeTouch])) ∧
    (∀ k m, env.createAt k = .alreadyExists → env.clockAt k < deadline →
      env.statAt k = .mtimeIs m → env.clockAt k < m + stale →
      acquireStep deadline stale env k
        = (.retry, [.createAttempt, .statAttempt, .sleepPoll])) ∧
    (∀ m K fuel,
      (∀ k, env.createAt k = .alreadyExists) →
      (∀ k, env.statAt k = .mtimeIs m) →
      (∀ k, env.clockAt k < deadline → env.clockAt k < m + stale) →
      deadline ≤ env.clockAt K →
      (∀ j, j < K → env.clockAt j < deadline) →
      K < fuel →
      (acquireGo deadline stale env 0 fuel).1 = .timeoutErr) := by
  have hstep_timeout : ∀ k, env.createAt k = .alreadyExists → deadline ≤ env.clockAt k →
      acquireStep deadline stale env k = (.done .timeoutErr, [.createAttempt]) := by
    intro k hc ht
    unfold acquireStep
    rw [hc]
    simp [ht]
  have hstep_sleep : ∀ k m, env.createAt k = .alreadyExists → env.clockAt k < deadline →
      env.statAt k = .mtimeIs m → env.clockAt k < m + stale →
      acquireStep deadline stale env k = (.retry, [.createAttempt, .statAttempt, .sleepPoll]) := by
    intro k m hc ht hs hns
    unfold acquireStep
    rw [hc]
    simp only [if_neg (by omega : ¬ deadline ≤ env.clockAt k), hs]
    simp [if_neg (by omega : ¬ m + stale ≤ env.clockAt k)]
  refine ⟨?_, ?_, hstep_sleep, ?_⟩
  · intro k hc
    constructor
    · intro hres
      by_contra ht
      push_neg at ht
      unfold acquireStep at hres
      rw [hc] at hres
      simp only [if_neg (by omega : ¬ deadline ≤ env.clockAt k)] at hres
      match hs : env.statAt k with
      | .vanished => rw [hs] at hres; simp at hres
      | .osFailure => rw [hs] at hres; simp at hres
      | .mtimeIs m =>
        rw [hs] at hres
        by_cases hst : m + stale ≤ env.clockAt k
        · simp only [if_pos hst] at hres
          match hu : env.utimeAt k with
          | .ok => rw [hu] at hres; simp at hres
          | .osFailure => rw [hu] at hres; simp at hres
        · simp [if_neg hst] at hres
    · intro ht
      rw [hstep_timeout k hc ht]
  · intro k m hc ht hs hst hu
    unfold acquireStep
    rw [hc]
    simp only [if_neg (by omega : ¬ deadline ≤ env.clockAt k), hs, if_pos hst, hu]
  · intro m K fuel hC hS hNS hK hfirst hfuel
    suffices h : ∀ d k fuel, K = k + d → d < fuel →
        (acquireGo deadline stale env k fuel).1 = .timeoutErr by
      exact h K 0 fuel (by omega) hfuel
    intro d
    induction d with
    | zero =>
      intro k fuel hk hfuel
      match fuel, hfuel with
      | Nat.succ fuel, _ =>
        have hkK : k = K := by omega
        rw [acquireGo, hstep_timeout k (hC k) (hkK ▸ hK)]
    | succ d ih =>
      intro k fuel hk hfuel
      match fuel, hfuel with
      | Nat.succ fuel, hfuel =>
        have hlt : env.clockAt k < deadline := hfirst k (by omega)
        rw [acquireGo, hstep_sleep k m (hC k) hlt (hS k) (hNS k hlt)]
        exact ih (k + 1) fuel (by omega) (by omega)

/-- Environment for the C8 witness: the lock file always exists with mtime 90,
the clock starts at 100 and advances by 1 per iteration. -/
def c8wEnv : LockEnv where
  makedirs := .ok
  createAt := fun _ => .alreadyExists
  clockAt := fun k => 100 + k
  statAt := fun _ => .mtimeIs 90
  utimeAt := fun _ => .ok

/-- C8 witness: with deadline 105 and stale 60, the lock (mtime 90) never goes
stale before the deadline, so the waiter polls until iteration 5 reaches the
deadline and the acquire fails with the timeout error. -/
theorem c8_timeout_vs_stale_takeover_witness :
    (acquireGo 105 60 c8wEnv 0 6).1 = .timeoutErr :=
  (c8_timeout_vs_stale_takeover 105 60 c8wEnv).2.2.2 90 5 6
    (fun _ => rfl) (fun _ => rfl)
    (by intro k h; simp only [c8wEnv] at *; omega)
    (by simp [c8wEnv])
    (by intro j hj; simp only [c8wEnv]; omega)
    (by norm_num)

/-- Environment where creating the locks directory fails with a non-exists
`OSError` (e.g. permission denied). -/
def c9wEnvMkdir : LockEnv where
  makedirs := .osFailure
  createAt := fun _ => .alreadyExists
  clockAt := fun _ => 0
  statAt := fun _ => .mtimeIs 0
  utimeAt := fun _ => .ok

/-- Environment where the exclusive create of the lock file fails with an
`OSError` other than `FileExistsError`. -/
def c9wEnvCreate : LockEnv where
  makedirs := .ok
  createAt := fun _ => .osFailure
  clockAt := fun _ => 0
  statAt := fun _ => .mtimeIs 0
  utimeAt := fun _ => .ok

/-- Environment where stat of the existing lock file fails with an `OSError`
other than `FileNotFoundError`. -/
def c9wEnvStat : LockEnv where
  makedirs := .ok
  createAt := fun _ => .alreadyExists
  clockAt := fun _ => 0
  statAt := fun _ => .osFailure
  utimeAt := fun _ => .ok

/-- C9 (code bug): the create-file and stat failure branches do raise the lock
generate-error without retrying, but the makedirs failure branch raises
`NameError` instead — its error message f-string reads the undefined local
`name` (host.py line 122 writes `name` where the two other branches write
`self.name`), and the f-string is evaluated before `LockGenerateError` is
constructed. -/
theorem c9_generate_errors :
    acquire 5 60 0 c9wEnvMkdir 10 = (.nameErr, []) ∧
      AcqOutcome.nameErr ≠ AcqOutcome.generateErr ∧
      (acquire 5 60 0 c9wEnvCreate 10).1 = .generateErr ∧
      (acquire 5 60 0 c9wEnvStat 10).1 = .generateErr := by
  refine ⟨rfl, by decide, rfl, rfl⟩

/-! ## `MutatingDict` (`webscrapbook/scrapbook/cache.py`)

The indexer's frontier structure: a `UserDict` that keeps a separate `_keys`
list so the mapping can be mutated while being iterated.  `__setitem__`
appends the key to `_keys` only when it is new; `__iter__` iterates `_keys`;
`__delitem__` is not implemented. -/

/-- `MutatingDict`: the `_keys` list plus the underlying dict data. -/
structure MutatingDict (α : Type) where
  keyList : List String
  data : Dict α
  deriving DecidableEq, Repr

/-- `MutatingDict.__setitem__`. -/
def MutatingDict.setItem (d : MutatingDict α) (k : String) (v : α) : MutatingDict α :=
  { keyList := if Dict.hasKey d.data k then d.keyList else d.keyList ++ [k]
    data := Dict.set d.data k v }

/-- Well-formedness: `_keys` lists exactly the dict's keys, each once. -/
def MutatingDict.WF (d : MutatingDict α) : Prop :=
  d.keyList = Dict.keys d.data ∧ d.keyList.Nodup

/-- A sequence of `__setitem__` calls. -/
def MutatingDict.applyOps (d : MutatingDict α) (ops : List (String × α)) : MutatingDict α :=
  ops.foldl (fun d p => d.setItem p.1 p.2) d

/-- The keys of `ops` that are new w.r.t. `base`, each at its first
occurrence, in operation order. -/
def newKeysOf (base : List String) : List (String × α) → List String
  | [] => []
  | (k, _) :: rest =>
    if base.contains k then newKeysOf base rest
    else k :: newKeysOf (base ++ [k]) rest

theorem MutatingDict.setItem_keyList (d : MutatingDict α) (k : String) (v : α)
    (hwf : d.WF) :
    (d.setItem k v).keyList
      = (if d.keyList.contains k then d.keyList else d.keyList ++ [k]) := by
  obtain ⟨hk, _⟩ := hwf
  unfold setItem
  simp only [Dict.hasKey, ← hk]

theorem MutatingDict.setItem_wf (d : MutatingDict α) (k : String) (v : α)
    (hwf : d.WF) : (d.setItem k v).WF := by
  obtain ⟨hk, hnd⟩ := hwf
  constructor
  · show (if Dict.hasKey d.data k then d.keyList else d.keyList ++ [k])
      = Dict.keys (Dict.set d.data k v)
    rw [Dict.keys_set]
    by_cases h : Dict.hasKey d.data k <;> simp [h, hk]
  · show (if Dict.hasKey d.data k then d.keyList else d.keyList ++ [k]).Nodup
    by_cases h : Dict.hasKey d.data k
    · simpa [h] using hnd
    · have hnk : ¬ k ∈ d.keyList := by
        rw [hk]
        intro hmem
        exact absurd ((Dict.hasKey_iff d.data k).mpr hmem) (by simp [h])
      simp only [h, if_neg, Bool.false_eq_true, ite_false]
      simpa [List.nodup_append] using ⟨hnd, hnk⟩

/-- C10: frontier iteration invariant of `MutatingDict`.
For any well-formed state and any sequence of `__setitem__` calls:
1. the `_keys` list afterwards is the old list followed by the first
   occurrences of the genuinely new keys, in operation order — so an
   index-based iteration in progress visits every newly inserted key exactly
   once, after the old keys;
2. `_keys` still has no duplicates (each distinct key is yielded exactly
   once);
3. the old `_keys` list is a prefix of the new one (no reordering);
4. a key is present afterwards iff it was present before or assigned by some
   operation;
5. re-assigning an already-present key leaves `_keys` unchanged. -/
theorem c10_mutating_dict (d : MutatingDict α) (ops : List (String × α)) (hwf : d.WF) :
    (d.applyOps ops).keyList = d.keyList ++ newKeysOf d.keyList ops ∧
    (d.applyOps ops).keyList.Nodup ∧
    d.keyList <+: (d.applyOps ops).keyList ∧
    (∀ k, k ∈ (d.applyOps ops).keyList ↔ k ∈ d.keyList ∨ k ∈ ops.map Prod.fst) ∧
    (∀ k v, k ∈ d.keyList → (d.setItem k v).keyList = d.keyList) := by
  have hmain : ∀ (ops : List (String × α)) (d : MutatingDict α), d.WF →
      (d.applyOps ops).keyList = d.keyList ++ newKeysOf d.keyList ops ∧
      (d.applyOps ops).WF := by
    intro ops
    induction ops with
    | nil => intro d hwf; exact ⟨by simp [MutatingDict.applyOps, newKeysOf], hwf⟩
    | cons p rest ih =>
      intro d hwf
      obtain ⟨k, v⟩ := p
      have hstep : (d.setItem k v).keyList
          = (if d.keyList.contains k then d.keyList else d.keyList ++ [k]) :=
        MutatingDict.setItem_keyList d k v hwf
      have hwf' : (d.setItem k v).WF := MutatingDict.setItem_wf d k v hwf
      have happ : d.applyOps ((k, v) :: rest) = (d.setItem k v).applyOps rest := rfl
      obtain ⟨ih1, ih2⟩ := ih (d.setItem k v) hwf'
      rw [happ, ih1, hstep]
      by_cases hc : d.keyList.contains k
      · simp only [if_pos hc]
        refine ⟨?_, ih2⟩
        rw [newKeysOf, if_pos hc]
      · simp only [if_neg hc]
        refine ⟨?_, ih2⟩
        rw [newKeysOf, if_neg hc]
        simp
  obtain ⟨h1, h2, h3⟩ := hmain ops d hwf
  refine ⟨h1, h3, h1 ▸ ⟨_, rfl⟩, ?_, ?_⟩
  · intro k
    have hmem : ∀ (ops : List (String × α)) (base : List String) (k : String),
        k ∈ newKeysOf base ops ↔ k ∈ (ops.map Prod.fst) ∧ ¬ k ∈ base := by
      intro ops
      induction ops with
      | nil => intro base k; simp [newKeysOf]
      | cons p rest ih =>
        intro base k
        obtain ⟨k', v'⟩ := p
        rw [newKeysOf]
        by_cases hc : base.contains k'
        · rw [if_pos hc, ih]
          simp only [List.map_cons, List.mem_cons]
          constructor
          · rintro ⟨hm, hb⟩; exact ⟨Or.inr hm, hb⟩
          · rintro ⟨hm | hm, hb⟩
            · subst hm
              exact absurd (by simpa using hc) hb
            · exact ⟨hm, hb⟩
        · rw [if_neg hc, List.mem_cons, ih]
          simp only [List.map_cons, List.mem_cons, List.mem_append, List.mem_singleton]
          constructor
          · rintro (rfl | ⟨hm, hb⟩)
            · exact ⟨Or.inl rfl, by simpa using hc⟩
            · exact ⟨Or.inr hm, fun hk => hb (Or.inl hk)⟩
          · rintro ⟨hm | hm, hb⟩
            · exact Or.inl hm
            · by_cases hkk : k = k'
              · exact Or.inl hkk
              · exact Or.inr ⟨hm, by simp [hb, hkk]⟩
    rw [h1]
    simp only [List.mem_append, hmem ops d.keyList k]
    constructor
    · rintro (h | ⟨h, _⟩)
      · exact Or.inl h
      · exact Or.inr h
    · rintro (h | h)
      · exact Or.inl h
      · by_cases hb : k ∈ d.keyList
        · exact Or.inl hb
        · exact Or.inr ⟨h, hb⟩
  · intro k v hk
    rw [MutatingDict.setItem_keyList d k v hwf, if_pos (by simpa using hk)]

/-- C10 witness: from an empty frontier, assigning `a`, `b`, then re-assigning
`a` yields the key list `[a, b]` with no duplicate and no reordering. -/
theorem c10_mutating_dict_witness :
    (MutatingDict.applyOps ⟨[], []⟩ [("a", 1), ("b", 2), ("a", 3)]).keyList
        = [] ++ newKeysOf [] [("a", 1), ("b", 2), ("a", 3)] ∧
      (MutatingDict.applyOps ⟨[], []⟩ [("a", 1), ("b", 2), ("a", 3)]).keyList.Nodup ∧
      [] <+: (MutatingDict.applyOps ⟨[], []⟩ [("a", 1), ("b", 2), ("a", 3)]).keyList ∧
      (∀ k, k ∈ (MutatingDict.applyOps ⟨[], []⟩ [("a", 1), ("b", 2), ("a", 3)]).keyList ↔
        k ∈ ([] : List String) ∨
          k ∈ [("a", 1), ("b", 2), ("a", 3)].map Prod.fst) ∧
      (∀ (k : String) (v : Nat), k ∈ ([] : List String) →
        (MutatingDict.setItem (⟨[], []⟩ : MutatingDict Nat) k v).keyList = []) :=
  c10_mutating_dict ⟨[], []⟩ [("a", 1), ("b", 2), ("a", 3)] ⟨rfl, List.nodup_nil⟩

/-! ## Fulltext cache generator (`webscrapbook/scrapbook/cache.py`)

`FulltextCacheGenerator.run` computes the cache watermark, loads the three
mappings, snapshots the fulltext mapping, drops entries for ids missing from
the metadata, processes every metadata record
(`_collect_files_to_update` + `_handle_files_to_update`), and finally either
saves (mapping changed) or touches the shard files (unchanged).

The filesystem is a `CacheEnv` of oracles keyed by the record's `index` path.
Page contents are abstracted to the constructs the extractor inspects: text
chunks, `a`/`area` links and `iframe`/`frame` sources whose URLs have already
been put through `get_relative_file_path` (an `Option Path`: `none` for
absolute/scheme-qualified/escaping/self URLs), plus the meta-refresh preamble.
`data:` URL recursion and the lxml event-stream details are outside every
claim and are not modelled.  An extraction that raises (decode errors, parse
errors, …) is a `PageRes.raisesExc`.  The frontier `files_to_update` is a
`MutatingDict Bool`; since under its well-formedness invariant the `_keys`
list is exactly the dict's key list (theorem `c10_mutating_dict`), the
frontier is embedded directly as a `Dict Bool` whose entry order is insertion
order. -/

/-- Record ids (opaque strings). -/
abbrev RecId := String

/-- Logical file paths inside a record. -/
abbrev Path := String

/-- A construct of a parsed HTML page that the extractor walk inspects. -/
inductive Elem where
  | text (s : String)
  | link (target : Option Path)
  | frame (target : Option Path)
  deriving DecidableEq, Repr

/-- A page's content, after MIME dispatch (`_get_fulltext_cache_for_fh`):
HTML pages carry the meta-refresh preamble and the walk's constructs, `text/*`
pages carry raw text, anything else yields no text. -/
inductive Doc where
  | htmlDoc (instantRedirect : Bool) (refreshTargets : List (Option Path)) (elems : List Elem)
  | txtDoc (s : String)
  | binDoc
  deriving DecidableEq, Repr

/-- What opening/reading a record file yields. -/
inductive PageRes where
  | missing
  | raisesExc
  | doc (d : Doc)
  deriving DecidableEq, Repr

/-- The filesystem/book oracles of one generator run, keyed by the record's
`index` (the classifiers are pure functions of the index filename). -/
structure CacheEnv where
  indexExists : Path → Bool
  isArchive : Path → Bool
  archiveMtime : Path → Nat
  indexPaths : Path → List Path
  mtime : Path → Path → Option Nat
  page : Path → Path → PageRes

/-- One pass of `REGEX_TEXT_SPACE_CONVERTER.sub(' ', ·)`: collapse every
maximal whitespace run into a single space. -/
def collapseWsGo : Bool → List Char → List Char
  | _, [] => []
  | inRun, c :: cs =>
    if c.isWhitespace then
      if inRun then collapseWsGo true cs else ' ' :: collapseWsGo true cs
    else c :: collapseWsGo false cs

/-- `REGEX_TEXT_SPACE_CONVERTER.sub(' ', s).strip()`. -/
def normText (s : String) : String :=
  let l := collapseWsGo false s.data
  String.mk (((l.dropWhile (fun c => c = ' ')).reverse.dropWhile (fun c => c = ' ')).reverse)

/-- Result of `_get_fulltext_cache` on one path: either an exception escaped
(with the frontier mutations made so far kept — Python mutates in place), or
the optional extracted text together with the mutated frontier. -/
inductive ExtRes where
  | excRaised (ft : Dict Bool)
  | doneOk (txt : Option String) (ft : Dict Bool)
  deriving DecidableEq, Repr

/-- Result of the HTML element walk. -/
inductive ElemsRes where
  | excRaised (ft : Dict Bool)
  | doneOk (results : List String) (ft : Dict Bool)
  deriving DecidableEq, Repr

/-- Adding a meta-refresh or link target: `if target and target not in
item.files_to_update: item.files_to_update[target] = True`. -/
def addPendingTarget (ft : Dict Bool) (t : Option Path) : Dict Bool :=
  match t with
  | none => ft
  | some t => if Dict.hasKey ft t then ft else Dict.set ft t true

/-- A pending call of the (mutually recursive) extractor: either
`_get_fulltext_cache` on a path, or the element walk inside
`_get_fulltext_cache_html`. -/
inductive ExtCall where
  | doPage (p : Path) (ft : Dict Bool)
  | doWalk (es : List Elem) (ft : Dict Bool) (rs : List String)
  deriving DecidableEq, Repr

/-- Result of an extractor call. -/
inductive ExtOut where
  | excRaised (ft : Dict Bool)
  | pageDone (txt : Option String) (ft : Dict Bool)
  | walkDone (rs : List String) (ft : Dict Bool)
  deriving DecidableEq, Repr

/-- The extractor of `cache.py`, as one fuel-indexed function over the two
call shapes (`none` = fuel ran out; a `doPage` call only ever produces
`excRaised`/`pageDone`, a `doWalk` call only `excRaised`/`walkDone` — the two
crossed branches are unreachable and mapped to `none`).

`doPage p ft` is `_get_fulltext_cache(item, p)`: open the file (`missing` →
no text), dispatch on MIME (`_get_fulltext_cache_for_fh`); an HTML page first
adds its meta-refresh targets as pending, returns early on an instant
redirect (with no text: `data:` contributions are not modelled), else walks
the body and normalizes the joined results; a `text/*` page normalizes the
decoded text; other MIME types yield no text.

`doWalk es ft rs` is the body walk of `_get_fulltext_cache_html`: collect
text, add unseen link targets as pending; a frame target, with
`inclusive_frames` set and the target not already resolved (`False`), is
marked resolved first, recursively extracted, and its nonempty text appended
to the current page's results; with `inclusive_frames` unset a frame behaves
exactly like a link. -/
def extractCall (env : CacheEnv) (inc : Bool) (index : Path) : Nat → ExtCall → Option ExtOut
  | 0, _ => none
  | Nat.succ fuel, .doPage p ft =>
    match env.page index p with
    | .missing => some (.pageDone none ft)
    | .raisesExc => some (.excRaised ft)
    | .doc .binDoc => some (.pageDone none ft)
    | .doc (.txtDoc s) => some (.pageDone (some (normText s)) ft)
    | .doc (.htmlDoc instant refreshTargets elems) =>
      let ft1 := refreshTargets.foldl addPendingTarget ft
      if instant then some (.pageDone none ft1)
      else
        match extractCall env inc index fuel (.doWalk elems ft1 []) with
        | none => none
        | some (.excRaised ft2) => some (.excRaised ft2)
        | some (.walkDone rs ft2) =>
          some (.pageDone (some (normText (String.intercalate " " rs))) ft2)
        | some (.pageDone _ _) => none
  | Nat.succ _, .doWalk [] ft rs => some (.walkDone rs ft)
  | Nat.succ fuel, .doWalk (.text s :: es) ft rs =>
    extractCall env inc index fuel (.doWalk es ft (rs ++ [s]))
  | Nat.succ fuel, .doWalk (.link t :: es) ft rs =>
    extractCall env inc index fuel (.doWalk es (addPendingTarget ft t) rs)
  | Nat.succ fuel, .doWalk (.frame none :: es) ft rs =>
    extractCall env inc index fuel (.doWalk es ft rs)
  | Nat.succ fuel, .doWalk (.frame (some t) :: es) ft rs =>
    if inc then
      if Dict.getVal ft t = some false then extractCall env inc index fuel (.doWalk es ft rs)
      else
        match extractCall env inc index fuel (.doPage t (Dict.set ft t false)) with
        | none => none
        | some (.excRaised ft2) => some (.excRaised ft2)
        | some (.pageDone txt ft2) =>
          extractCall env inc index fuel (.doWalk es ft2 (match txt with
            | some s => if s = "" then rs else rs ++ [s]
            | none => rs))
        | some (.walkDone _ _) => none
    else extractCall env inc index fuel (.doWalk es (addPendingTarget ft (some t)) rs)

/-- `_get_fulltext_cache(item, p)` with frontier `ft`. -/
def getFulltextCache (env : CacheEnv) (inc : Bool) (index : Path)
    (fuel : Nat) (p : Path) (ft : Dict Bool) : Option ExtRes :=
  match extractCall env inc index fuel (.doPage p ft) with
  | none => none
  | some (.excRaised f) => some (.excRaised f)
  | some (.pageDone t f) => some (.doneOk t f)
  | some (.walkDone _ _) => none

/-- The element walk with frontier `ft` and collected results `rs`. -/
def extractWalk (env : CacheEnv) (inc : Bool) (index : Path)
    (fuel : Nat) (es : List Elem) (ft : Dict Bool) (rs : List String) : Option ElemsRes :=
  match extractCall env inc index fuel (.doWalk es ft rs) with
  | none => none
  | some (.excRaised f) => some (.excRaised f)
  | some (.walkDone r f) => some (.doneOk r f)
  | some (.pageDone _ _) => none

/-- The frontier carried by a pending extractor call. -/
def ExtCall.front : ExtCall → Dict Bool
  | .doPage _ ft => ft
  | .doWalk _ ft _ => ft

/-- The frontier carried by an extractor result. -/
def ExtOut.front : ExtOut → Dict Bool
  | .excRaised ft => ft
  | .pageDone _ ft => ft
  | .walkDone _ ft => ft

/-- How the extractor may change the frontier: keys are only appended (old
entries keep their positions), distinctness is preserved, and a path already
resolved (`False`) never becomes pending again. -/
def frontierExtends (a b : Dict Bool) : Prop :=
  (Dict.keys a <+: Dict.keys b) ∧
  ((Dict.keys a).Nodup → (Dict.keys b).Nodup) ∧
  (∀ q, Dict.getVal a q = some false → Dict.getVal b q = some false)

theorem frontierExtends_refl (a : Dict Bool) : frontierExtends a a :=
  ⟨List.prefix_refl _, fun h => h, fun _ h => h⟩

theorem frontierExtends_trans {a b c : Dict Bool}
    (h1 : frontierExtends a b) (h2 : frontierExtends b c) : frontierExtends a c :=
  ⟨h1.1.trans h2.1, fun h => h2.2.1 (h1.2.1 h), fun q h => h2.2.2 q (h1.2.2 q h)⟩

theorem frontierExtends_set_true (ft : Dict Bool) (t : Path)
    (h : Dict.hasKey ft t = false) : frontierExtends ft (Dict.set ft t true) := by
  refine ⟨Dict.keys_set_prefix ft t true, fun hn => Dict.nodup_keys_set ft t true hn, ?_⟩
  intro q hq
  rw [Dict.getVal_set]
  rcases eq_or_ne t q with rfl | hne
  · rw [Dict.hasKey_eq_false_iff] at h
    rw [h] at hq
    cases hq
  · rw [if_neg hne]
    exact hq

theorem frontierExtends_set_false (ft : Dict Bool) (t : Path) :
    frontierExtends ft (Dict.set ft t false) := by
  refine ⟨Dict.keys_set_prefix ft t false, fun hn => Dict.nodup_keys_set ft t false hn, ?_⟩
  intro q hq
  rw [Dict.getVal_set]
  rcases eq_or_ne t q with rfl | hne
  · simp
  · rw [if_neg hne]
    exact hq

theorem frontierExtends_addPending (ft : Dict Bool) (t : Option Path) :
    frontierExtends ft (addPendingTarget ft t) := by
  match t with
  | none => exact frontierExtends_refl ft
  | some t =>
    show frontierExtends ft (if Dict.hasKey ft t then ft else Dict.set ft t true)
    by_cases h : Dict.hasKey ft t
    · rw [if_pos h]
      exact frontierExtends_refl ft
    · rw [if_neg h]
      exact frontierExtends_set_true ft t (by simpa using h)

theorem frontierExtends_foldl_addPending (ts : List (Option Path)) :
    ∀ (ft : Dict Bool), frontierExtends ft (ts.foldl addPendingTarget ft) := by
  induction ts with
  | nil => exact fun ft => frontierExtends_refl ft
  | cons t ts ih =>
    intro ft
    exact frontierExtends_trans (frontierExtends_addPending ft t) (ih _)

/-- The extractor only extends the frontier, in the sense of
`frontierExtends`, whatever call succeeds. -/
theorem extractCall_frontier (env : CacheEnv) (inc : Bool) (index : Path) :
    ∀ (fuel : Nat) (c : ExtCall) (r : ExtOut),
      extractCall env inc index fuel c = some r →
      frontierExtends (ExtCall.front c) (ExtOut.front r) := by
  intro fuel
  induction fuel with
  | zero => intro c r h; simp [extractCall] at h
  | succ fuel ih =>
    intro c r h
    match c with
    | .doPage p ft =>
      rw [extractCall] at h
      match hp : env.page index p with
      | .missing => rw [hp] at h; cases h; exact frontierExtends_refl ft
      | .raisesExc => rw [hp] at h; cases h; exact frontierExtends_refl ft
      | .doc .binDoc => rw [hp] at h; cases h; exact frontierExtends_refl ft
      | .doc (.txtDoc s) => rw [hp] at h; cases h; exact frontierExtends_refl ft
      | .doc (.htmlDoc instant refreshTargets elems) =>
        rw [hp] at h
        simp only at h
        have hfold := frontierExtends_foldl_addPending refreshTargets ft
        by_cases hin : instant
        · rw [if_pos hin] at h
          cases h
          exact hfold
        · rw [if_neg hin] at h
          match hrec : extractCall env inc index fuel
              (.doWalk elems (refreshTargets.foldl addPendingTarget ft) []) with
          | none => rw [hrec] at h; cases h
          | some (.excRaised ft2) =>
            rw [hrec] at h; cases h
            exact frontierExtends_trans hfold (ih _ _ hrec)
          | some (.walkDone rs ft2) =>
            rw [hrec] at h; cases h
            exact frontierExtends_trans hfold (ih _ _ hrec)
          | some (.pageDone t ft2) => rw [hrec] at h; cases h
    | .doWalk [] ft rs =>
      rw [extractCall] at h
      cases h
      exact frontierExtends_refl ft
    | .doWalk (.text s :: es) ft rs =>
      rw [extractCall] at h
      have h2 := ih _ r h
      exact h2
    | .doWalk (.link t :: es) ft rs =>
      rw [extractCall] at h
      have h2 := ih _ r h
      exact frontierExtends_trans (frontierExtends_addPending ft t) h2
    | .doWalk (.frame none :: es) ft rs =>
      rw [extractCall] at h
      have h2 := ih _ r h
      exact h2
    | .doWalk (.frame (some t) :: es) ft rs =>
      rw [extractCall] at h
      by_cases hi : inc
      · rw [if_pos hi] at h
        by_cases hv : Dict.getVal ft t = some false
        · rw [if_pos hv] at h
          have h2 := ih _ r h
          exact h2
        · rw [if_neg hv] at h
          match hrec : extractCall env inc index fuel (.doPage t (Dict.set ft t false)) with
          | none => rw [hrec] at h; cases h
          | some (.excRaised ft2) =>
            rw [hrec] at h; cases h
            exact frontierExtends_trans (frontierExtends_set_false ft t) (ih _ _ hrec)
          | some (.pageDone txt ft2) =>
            rw [hrec] at h
            have h2 := ih _ r h
            exact frontierExtends_trans (frontierExtends_set_false ft t)
              (frontierExtends_trans (ih _ _ hrec) h2)
          | some (.walkDone r2 ft2) => rw [hrec] at h; cases h
      · rw [if_neg hi] at h
        have h2 := ih _ r h
        exact frontierExtends_trans (frontierExtends_addPending ft (some t)) h2

/-- Events of the generator's lazy `Info` stream that the claims mention. -/
inductive Ev where
  | removedStale (id : RecId)
  | updating (id : RecId)
  | creating (id : RecId)
  | cacheFail (id : RecId) (path : Path)
  deriving DecidableEq, Repr

/-- Per-record state while handling `files_to_update`: the frontier, the
record's fulltext cache `book.fulltext[id]`, the `has_update` flag, the events
yielded so far and the trace of paths for which `_get_fulltext_cache` was
invoked (the extraction trace). -/
structure RecSt where
  front : Dict Bool
  cache : Dict String
  hasUpd : Bool
  log : List Ev
  exts : List Path
  deriving DecidableEq, Repr

/-- `report_update()`: on the first change, yield `Updating` if the record's
cache is currently nonempty, else `Creating`. -/
def reportUpd (id : RecId) (st : RecSt) : RecSt :=
  if st.hasUpd then st
  else { st with
         hasUpd := true
         log := st.log ++ [if st.cache.isEmpty then Ev.creating id else Ev.updating id] }

/-- One iteration of the `for path in files_to_update` loop of
`_handle_files_to_update`, for the entry `(p, b)` (`b` is the current status
read back from the frontier). -/
def drainStep (env : CacheEnv) (inc : Bool) (index : Path) (W : Nat) (id : RecId)
    (hfuel : Nat) (p : Path) (b : Bool) (st : RecSt) : Option RecSt :=
  if b = false then
    some (if st.cache.hasKey p then
      let st1 := reportUpd id st
      { st1 with cache := Dict.erase st1.cache p }
    else st)
  else
    let st1 := { st with front := Dict.set st.front p false }
    match env.mtime index p with
    | none =>
      some (if st1.cache.hasKey p then
        let st2 := reportUpd id st1
        { st2 with cache := Dict.erase st2.cache p }
      else st1)
    | some m =>
      if st1.cache.hasKey p = true ∧ m ≤ W then some st1
      else
        let st2 := reportUpd id st1
        match getFulltextCache env inc index hfuel p st2.front with
        | none => none
        | some (.excRaised ft2) =>
          some { st2 with
                 front := ft2
                 cache := Dict.set st2.cache p ""
                 log := st2.log ++ [Ev.cacheFail id p]
                 exts := st2.exts ++ [p] }
        | some (.doneOk t ft2) =>
          some { st2 with
                 front := ft2
                 cache := Dict.set st2.cache p (t.getD "")
                 exts := st2.exts ++ [p] }

/-- The `for path in files_to_update` loop: index-based iteration over the
live frontier (new keys are appended while iterating, re-assignments keep
positions, so position `i` holds the `i`-th yielded key with its current
status).  `fuel` bounds the number of iterations; `none` means fuel ran out
mid-loop. -/
def drainGo (env : CacheEnv) (inc : Bool) (index : Path) (W : Nat) (id : RecId)
    (hfuel : Nat) : Nat → Nat → RecSt → Option RecSt
  | 0, _, _ => none
  | Nat.succ fuel, i, st =>
    if h : i < st.front.length then
      match drainStep env inc index W id hfuel (st.front.get ⟨i, h⟩).1
          (st.front.get ⟨i, h⟩).2 st with
      | none => none
      | some st2 => drainGo env inc index W id hfuel fuel (i + 1) st2
    else some st

/-- `_collect_files_to_update`: build the initial frontier.  New record (no
cache entry yet): its index paths, pending.  Cached record backed by an
archive container not newer than the watermark: empty frontier (skip).
Otherwise: index paths plus every cached path, all pending. -/
def collectFiles (env : CacheEnv) (W : Nat) (index : Path) (ftHas : Bool)
    (cache : Dict String) : Dict Bool :=
  if ftHas = false then
    (env.indexPaths index).foldl (fun d p => Dict.set d p true) []
  else if env.isArchive index = true ∧ env.archiveMtime index ≤ W then []
  else
    let d := (env.indexPaths index).foldl (fun d p => Dict.set d p true) []
    (Dict.keys cache).foldl (fun d p => Dict.set d p true) d

/-- The fulltext mapping `book.fulltext`: record id → (path → extracted
content); the inner value models `{'content': text}`. -/
abbrev Fulltext := Dict (Dict String)

/-- Processing one metadata record with an existing index file:
`_collect_files_to_update` (which creates `book.fulltext[id] = {}` when
absent) followed by `_handle_files_to_update`, then writing the record's cache
back into the mapping (in place for an existing id, appended for a new id). -/
def processRecord (env : CacheEnv) (inc : Bool) (W : Nat) (hfuel dfuel : Nat)
    (ft : Fulltext) (id : RecId) (index : Path) :
    Option (Fulltext × List Ev × List (RecId × Path)) :=
  let ftHas := Dict.hasKey ft id
  let cache0 := (Dict.getVal ft id).getD []
  let front0 := collectFiles env W index ftHas cache0
  match drainGo env inc index W id hfuel dfuel 0 ⟨front0, cache0, false, [], []⟩ with
  | none => none
  | some st => some (Dict.set ft id st.cache, st.log, st.exts.map (fun p => (id, p)))

/-- The per-record loop of `run` over `book.meta.items()`: a record with no
`index` attribute (or an empty one, both falsy) or whose index file does not
exist gets its stale cache entry removed; otherwise it is processed. -/
def runMeta (env : CacheEnv) (inc : Bool) (W : Nat) (hfuel dfuel : Nat) :
    List (RecId × Option Path) → Fulltext → List Ev → List (RecId × Path) →
      Option (Fulltext × List Ev × List (RecId × Path))
  | [], ft, log, exts => some (ft, log, exts)
  | (id, none) :: rest, ft, log, exts =>
    if Dict.hasKey ft id then
      runMeta env inc W hfuel dfuel rest (Dict.erase ft id) (log ++ [Ev.removedStale id]) exts
    else runMeta env inc W hfuel dfuel rest ft log exts
  | (id, some index) :: rest, ft, log, exts =>
    if env.indexExists index = false then
      if Dict.hasKey ft id then
        runMeta env inc W hfuel dfuel rest (Dict.erase ft id) (log ++ [Ev.removedStale id]) exts
      else runMeta env inc W hfuel dfuel rest ft log exts
    else
      match processRecord env inc W hfuel dfuel ft id index with
      | none => none
      | some (ft2, l, e) => runMeta env inc W hfuel dfuel rest ft2 (log ++ l) (exts ++ e)

/-- Python `dict` equality (`==`/`!=`): same keys with equal values, order
irrelevant, with values compared by `veq`. -/
def dictEqvBy (veq : α → α → Bool) (d e : Dict α) : Bool :=
  d.all (fun p => match Dict.getVal e p.1 with | some v => veq p.2 v | none => false) &&
  e.all (fun p => match Dict.getVal d p.1 with | some v => veq p.2 v | none => false)

/-- Python equality of two fulltext mappings (nested dict equality). -/
def ftEqv (f g : Fulltext) : Bool :=
  dictEqvBy (dictEqvBy (fun a b => a == b)) f g

/-- Outcome of one `FulltextCacheGenerator.run`: the final fulltext mapping,
whether the save branch was taken (`false` = the mapping equalled the pre-run
snapshot, so every existing shard file is merely touched), the event log and
the extraction trace. -/
structure RunOut where
  ft : Fulltext
  saved : Bool
  log : List Ev
  exts : List (RecId × Path)
  deriving DecidableEq, Repr

/-- `FulltextCacheGenerator.run` for a book with watermark `W`
(`cache_last_modified`), metadata `meta` (id → optional index) and loaded
fulltext mapping `ft0`.  `hfuel`/`dfuel` bound the frame-recursion depth and
the per-record drain loop. -/
def runGen (env : CacheEnv) (inc : Bool) (W : Nat) (meta : List (RecId × Option Path))
    (ft0 : Fulltext) (hfuel dfuel : Nat) : Option RunOut :=
  let metaIds := meta.map Prod.fst
  let removed := ft0.filter (fun p => !(metaIds.contains p.1))
  let ftA := ft0.filter (fun p => metaIds.contains p.1)
  let log0 := removed.map (fun p => Ev.removedStale p.1)
  match runMeta env inc W hfuel dfuel meta ftA log0 [] with
  | none => none
  | some (ftF, log, exts) => some ⟨ftF, !(ftEqv ftF ft0), log, exts⟩

theorem Dict.erase_eq_self (d : Dict α) (k : String) (h : Dict.hasKey d k = false) :
    Dict.erase d k = d := by
  rw [Dict.erase, List.filter_eq_self]
  intro p hp
  have hne : ¬ p.1 = k := by
    intro hpk
    rw [← Bool.not_eq_true, Dict.hasKey_iff] at h
    exact h (hpk ▸ List.mem_map_of_mem Prod.fst hp)
  simp [hne]

theorem reportUpd_cache (id : RecId) (st : RecSt) : (reportUpd id st).cache = st.cache := by
  unfold reportUpd; split <;> rfl

theorem reportUpd_front (id : RecId) (st : RecSt) : (reportUpd id st).front = st.front := by
  unfold reportUpd; split <;> rfl

theorem reportUpd_exts (id : RecId) (st : RecSt) : (reportUpd id st).exts = st.exts := by
  unfold reportUpd; split <;> rfl

/-- C4: link versus frame discovery.
1. A plain link whose target resolves to a same-record relative path not yet
   in the frontier adds it as pending (appended, status `True`); an already
   known target leaves the frontier unchanged.
2. With frame inlining enabled, a framed page not yet resolved is marked
   resolved (`False`) before extraction, its nonempty extracted text is
   appended into the current page's results, and it is still resolved
   afterwards; an already resolved framed page is skipped entirely.
3. During the drain, a path whose status is `False` gets no extraction and no
   cache entry of its own — an existing entry is deleted.
4. A pending path that exists and needs an update gets its own independent
   cache entry from its own extraction.
5. With frame inlining disabled, a frame behaves exactly like a plain link. -/
theorem c4_link_vs_frame_discovery (env : CacheEnv) (index : Path) :
    (∀ (inc : Bool) (fuel : Nat) (t : Path) (es : List Elem) (ft : Dict Bool)
        (rs : List String),
      Dict.hasKey ft t = false →
      extractWalk env inc index (fuel + 1) (.link (some t) :: es) ft rs
        = extractWalk env inc index fuel es (Dict.set ft t true) rs) ∧
    (∀ (inc : Bool) (fuel : Nat) (t : Path) (es : List Elem) (ft : Dict Bool)
        (rs : List String),
      Dict.hasKey ft t = true →
      extractWalk env inc index (fuel + 1) (.link (some t) :: es) ft rs
        = extractWalk env inc index fuel es ft rs) ∧
    (∀ (fuel : Nat) (t : Path) (es : List Elem) (ft ft2 : Dict Bool)
        (rs : List String) (s : String),
      ¬ Dict.getVal ft t = some false →
      extractCall env true index fuel (.doPage t (Dict.set ft t false))
        = some (.pageDone (some s) ft2) →
      ¬ s = "" →
      extractWalk env true index (fuel + 1) (.frame (some t) :: es) ft rs
          = extractWalk env true index fuel es ft2 (rs ++ [s]) ∧
        Dict.getVal ft2 t = some false) ∧
    (∀ (fuel : Nat) (t : Path) (es : List Elem) (ft : Dict Bool) (rs : List String),
      Dict.getVal ft t = some false →
      extractWalk env true index (fuel + 1) (.frame (some t) :: es) ft rs
        = extractWalk env true index fuel es ft rs) ∧
    (∀ (inc : Bool) (W : Nat) (id : RecId) (hfuel : Nat) (p : Path) (st : RecSt),
      ∃ st2, drainStep env inc index W id hfuel p false st = some st2 ∧
        st2.cache = Dict.erase st.cache p ∧ st2.exts = st.exts ∧ st2.front = st.front) ∧
    (∀ (inc : Bool) (W : Nat) (id : RecId) (hfuel : Nat) (p : Path) (m : Nat)
        (st : RecSt) (t : Option String) (ft2 : Dict Bool),
      env.mtime index p = some m →
      ¬ (st.cache.hasKey p = true ∧ m ≤ W) →
      getFulltextCache env inc index hfuel p (Dict.set st.front p false)
        = some (.doneOk t ft2) →
      ∃ st2, drainStep env inc index W id hfuel p true st = some st2 ∧
        st2.cache = Dict.set st.cache p (t.getD "") ∧ st2.front = ft2 ∧
        st2.exts = st.exts ++ [p]) ∧
    (∀ (fuel : Nat) (t : Option Path) (es : List Elem) (ft : Dict Bool)
        (rs : List String),
      extractWalk env false index (fuel + 1) (.frame t :: es) ft rs
        = extractWalk env false index (fuel + 1) (.link t :: es) ft rs) := by
  refine ⟨?_, ?_, ?_, ?_, ?_, ?_, ?_⟩
  · intro inc fuel t es ft rs h
    unfold extractWalk
    rw [extractCall]
    simp [addPendingTarget, h]
  · intro inc fuel t es ft rs h
    unfold extractWalk
    rw [extractCall]
    simp [addPendingTarget, h]
  · intro fuel t es ft ft2 rs s hv hrec hs
    constructor
    · unfold extractWalk
      rw [extractCall]
      simp [hv, hrec, hs]
    · have hfr := extractCall_frontier env true index fuel _ _ hrec
      have hf : Dict.getVal (Dict.set ft t false) t = some false := by
        rw [Dict.getVal_set, if_pos rfl]
      exact hfr.2.2 t hf
  · intro fuel t es ft rs hv
    unfold extractWalk
    rw [extractCall]
    simp [hv]
  · intro inc W id hfuel p st
    unfold drainStep
    by_cases hc : st.cache.hasKey p
    · refine ⟨{ reportUpd id st with cache := Dict.erase (reportUpd id st).cache p },
        by simp [hc], ?_, ?_, ?_⟩
      · show Dict.erase (reportUpd id st).cache p = Dict.erase st.cache p
        rw [reportUpd_cache]
      · show (reportUpd id st).exts = st.exts
        exact reportUpd_exts id st
      · show (reportUpd id st).front = st.front
        exact reportUpd_front id st
    · simp only [Bool.not_eq_true] at hc
      refine ⟨st, by simp [hc], ?_, rfl, rfl⟩
      rw [Dict.erase_eq_self st.cache p hc]
  · intro inc W id hfuel p m st t ft2 hm hneed hext
    unfold drainStep
    rw [if_neg (by simp : ¬ (true = false))]
    simp only [hm]
    rw [if_neg hneed, reportUpd_front, hext]
    refine ⟨_, rfl, ?_, rfl, ?_⟩
    · show Dict.set (reportUpd id { st with front := Dict.set st.front p false }).cache
          p (t.getD "") = Dict.set st.cache p (t.getD "")
      rw [reportUpd_cache]
    · show (reportUpd id { st with front := Dict.set st.front p false }).exts ++ [p]
          = st.exts ++ [p]
      rw [reportUpd_exts]
  · intro fuel t es ft rs
    match t with
    | none =>
      unfold extractWalk
      rw [extractCall, extractCall]
      simp [addPendingTarget]
    | some t =>
      unfold extractWalk
      rw [extractCall, extractCall]
      simp

/-- Witness environment for C4: a single HTML page. -/
def c4wEnv : CacheEnv where
  indexExists := fun _ => true
  isArchive := fun _ => false
  archiveMtime := fun _ => 0
  indexPaths := fun x => [x]
  mtime := fun _ _ => some 5
  page := fun _ _ => .doc (.htmlDoc false [] [])

/-- Witness environment for C7: every page read raises. -/
def c7wEnv : CacheEnv where
  indexExists := fun _ => true
  isArchive := fun _ => false
  archiveMtime := fun _ => 0
  indexPaths := fun x => [x]
  mtime := fun _ _ => some 5
  page := fun _ _ => .raisesExc

/-- C4 witness: in the environment where `i.html` frames `c.html` (inclusive
mode), discovering a fresh plain link target `b.html` appends it pending. -/
theorem c4_link_vs_frame_discovery_witness :
    extractWalk c4wEnv true "i.html" 1 [Elem.link (some "b.html")] [] []
      = extractWalk c4wEnv true "i.html" 0 [] (Dict.set [] "b.html" true) [] :=
  (c4_link_vs_frame_discovery c4wEnv "i.html").1 true 0 "b.html" [] [] [] rfl

/-- C7: extraction-failure recovery.  When the drain reaches a pending path
whose file exists and needs an update and the extraction raises, the
exception is caught inside the per-path loop: the loop step rewrites the
path's cache entry to the empty string, emits the warning event naming the
record and path, and the iteration simply continues with the next frontier
position — the run never sees the exception. -/
theorem c7_extraction_failure_recovery (env : CacheEnv) (inc : Bool) (index : Path)
    (W : Nat) (id : RecId) (hfuel : Nat) (fuel i : Nat) (st : RecSt) (p : Path)
    (m : Nat) (h : i < st.front.length) (ftE : Dict Bool)
    (hpb : st.front.get ⟨i, h⟩ = (p, true))
    (hm : env.mtime index p = some m)
    (hneed : ¬ (st.cache.hasKey p = true ∧ m ≤ W))
    (hext : getFulltextCache env inc index hfuel p (Dict.set st.front p false)
      = some (.excRaised ftE)) :
    ∃ st2,
      drainGo env inc index W id hfuel (fuel + 1) i st
          = drainGo env inc index W id hfuel fuel (i + 1) st2 ∧
        Dict.getVal st2.cache p = some "" ∧
        Ev.cacheFail id p ∈ st2.log ∧
        st2.front = ftE := by
  have hstep : ∃ st2, drainStep env inc index W id hfuel p true st = some st2 ∧
      Dict.getVal st2.cache p = some "" ∧ Ev.cacheFail id p ∈ st2.log ∧
      st2.front = ftE := by
    unfold drainStep
    rw [if_neg (by simp : ¬ (true = false))]
    simp only [hm]
    rw [if_neg hneed, reportUpd_front, hext]
    refine ⟨_, rfl, by rw [Dict.getVal_set, if_pos rfl], by simp, rfl⟩
  obtain ⟨st2, hstep, hcache, hlog, hfront⟩ := hstep
  refine ⟨st2, ?_, hcache, hlog, hfront⟩
  rw [drainGo]
  rw [dif_pos h]
  simp only [hpb, hstep]

/-- C7 witness: with `i.html` raising during extraction, the drain step
records an empty entry and the failure event, and continues. -/
theorem c7_extraction_failure_recovery_witness :
    ∃ st2,
      drainGo c7wEnv true "i.html" 0 "r1" 3 1 0 ⟨[("i.html", true)], [], false, [], []⟩
          = drainGo c7wEnv true "i.html" 0 "r1" 3 0 1 st2 ∧
        Dict.getVal st2.cache "i.html" = some "" ∧
        Ev.cacheFail "r1" "i.html" ∈ st2.log ∧
        st2.front = Dict.set [("i.html", true)] "i.html" false :=
  c7_extraction_failure_recovery c7wEnv true "i.html" 0 "r1" 3 0 0
    ⟨[("i.html", true)], [], false, [], []⟩ "i.html" 5 (by decide)
    (Dict.set [("i.html", true)] "i.html" false) rfl rfl (by decide) rfl

theorem Dict.set_getVal_self (d : Dict α) (k : String) (v : α)
    (h : Dict.getVal d k = some v) : Dict.set d k v = d := by
  induction d with
  | nil => simp [Dict.getVal] at h
  | cons p d ih =>
    obtain ⟨k', v'⟩ := p
    by_cases hk : k' = k
    · subst hk
      simp [Dict.getVal] at h
      simp [Dict.set, h]
    · simp only [Dict.getVal, if_neg hk] at h
      simp [Dict.set, hk, ih h]

theorem getVal_foldl_setTrue (ps : List Path) :
    ∀ (d : Dict Bool) (p : Path),
      Dict.getVal (ps.foldl (fun d p => Dict.set d p true) d) p
        = if p ∈ ps then some true else Dict.getVal d p := by
  induction ps with
  | nil => intro d p; simp
  | cons q ps ih =>
    intro d p
    rw [List.foldl_cons, ih]
    by_cases hp : p ∈ ps
    · simp [hp]
    · rcases eq_or_ne q p with rfl | hne
      · simp [hp]
      · simp [hp, hne, Ne.symm hne]

/-- C3: archive staleness gating.
1. A record that already has a fulltext entry and is backed by an archive
   container whose mtime is at or below the watermark is skipped entirely: no
   frontier, no extraction, no event, and the mapping is returned unchanged.
2. When the container mtime exceeds the watermark (or the record is not
   archive-backed), the collected frontier marks exactly the record's index
   paths plus every path of its cached entry as pending.
3. A pending path whose source exists: if it has a cache sub-entry and its
   mtime is at or below the watermark, the drain step leaves the state
   untouched apart from resolving the path in the frontier (no extraction, no
   cache write, no event); otherwise the step performs an extraction (the
   path is appended to the extraction trace). -/
theorem c3_archive_staleness_gating (env : CacheEnv) :
    (∀ (inc : Bool) (W hfuel dfuel : Nat) (ft : Fulltext) (id : RecId) (index : Path),
      Dict.hasKey ft id = true →
      env.isArchive index = true →
      env.archiveMtime index ≤ W →
      1 ≤ dfuel →
      processRecord env inc W hfuel dfuel ft id index = some (ft, [], [])) ∧
    (∀ (W : Nat) (index : Path) (cache : Dict String),
      ¬ (env.isArchive index = true ∧ env.archiveMtime index ≤ W) →
      ∀ p, Dict.getVal (collectFiles env W index true cache) p
        = if p ∈ env.indexPaths index ∨ p ∈ Dict.keys cache then some true else none) ∧
    (∀ (inc : Bool) (index : Path) (W : Nat) (id : RecId) (hfuel : Nat) (p : Path)
        (m : Nat) (st : RecSt),
      env.mtime index p = some m →
      st.cache.hasKey p = true → m ≤ W →
      drainStep env inc index W id hfuel p true st
        = some { st with front := Dict.set st.front p false }) ∧
    (∀ (inc : Bool) (index : Path) (W : Nat) (id : RecId) (hfuel : Nat) (p : Path)
        (m : Nat) (st st2 : RecSt),
      env.mtime index p = some m →
      ¬ (st.cache.hasKey p = true ∧ m ≤ W) →
      drainStep env inc index W id hfuel p true st = some st2 →
      st2.exts = st.exts ++ [p]) := by
  refine ⟨?_, ?_, ?_, ?_⟩
  · intro inc W hfuel dfuel ft id index hft harc hmt hfuel1
    have hcol : collectFiles env W index (Dict.hasKey ft id) ((Dict.getVal ft id).getD [])
        = [] := by
      rw [hft]
      unfold collectFiles
      rw [if_neg (by simp), if_pos ⟨harc, hmt⟩]
    simp only [processRecord]
    rw [hcol]
    match dfuel, hfuel1 with
    | Nat.succ dfuel, _ =>
      rw [drainGo, dif_neg (by simp)]
      simp only
      congr 1
      have hv := (Dict.hasKey_eq_true_iff ft id).mp hft
      obtain ⟨v, hv⟩ := hv
      rw [hv]
      simp [Dict.set_getVal_self ft id v hv]
  · intro W index cache hno p
    unfold collectFiles
    rw [if_neg (by simp), if_neg hno]
    simp only
    rw [getVal_foldl_setTrue, getVal_foldl_setTrue]
    by_cases h1 : p ∈ Dict.keys cache
    · simp [h1]
    · by_cases h2 : p ∈ env.indexPaths index <;> simp [h1, h2, Dict.getVal]
  · intro inc index W id hfuel p m st hm hc hle
    unfold drainStep
    rw [if_neg (by simp : ¬ (true = false))]
    simp only [hm]
    rw [if_pos ⟨hc, hle⟩]
  · intro inc index W id hfuel p m st st2 hm hneed hstep
    unfold drainStep at hstep
    rw [if_neg (by simp : ¬ (true = false))] at hstep
    simp only [hm] at hstep
    rw [if_neg hneed] at hstep
    match hext : getFulltextCache env inc index hfuel p
        (reportUpd id { st with front := Dict.set st.front p false }).front with
    | none =>
      rw [hext] at hstep
      cases hstep
    | some (.excRaised ftE) =>
      rw [hext] at hstep
      cases hstep
      show (reportUpd id { st with front := Dict.set st.front p false }).exts ++ [p]
        = st.exts ++ [p]
      rw [reportUpd_exts]
    | some (.doneOk t ftE) =>
      rw [hext] at hstep
      cases hstep
      show (reportUpd id { st with front := Dict.set st.front p false }).exts ++ [p]
        = st.exts ++ [p]
      rw [reportUpd_exts]

/-- Witness environment for C3: an archive container with mtime 3. -/
def c3wEnv : CacheEnv where
  indexExists := fun _ => true
  isArchive := fun _ => true
  archiveMtime := fun _ => 3
  indexPaths := fun _ => ["index.html"]
  mtime := fun _ _ => some 3
  page := fun _ _ => .doc (.txtDoc "t")

/-- C3 witness: a cached archive-backed record whose container mtime 3 is at
the watermark 5 is skipped unchanged with no extraction. -/
theorem c3_archive_staleness_gating_witness :
    processRecord c3wEnv true 5 4 4 [("r1", [("index.html", "t")])] "r1" "a.htz"
      = some ([("r1", [("index.html", "t")])], [], []) :=
  (c3_archive_staleness_gating c3wEnv).1 true 5 4 4 [("r1", [("index.html", "t")])]
    "r1" "a.htz" (by decide) rfl (by decide) (by decide)

/-! ### Toward indexer idempotence (C2)

The second-run analysis needs positional facts about the frontier (an
in-place status flip keeps every other entry), membership facts about the
cache, and the invariants that one completed run establishes. -/

theorem Dict.hasKey_eq_isSome (d : Dict α) (k : String) :
    Dict.hasKey d k = (Dict.getVal d k).isSome := by
  by_cases h : Dict.hasKey d k
  · obtain ⟨v, hv⟩ := (Dict.hasKey_eq_true_iff d k).mp h
    rw [h, hv]
    rfl
  · rw [Bool.not_eq_true] at h
    rw [h, (Dict.hasKey_eq_false_iff d k).mp h]
    rfl

theorem Dict.hasKey_erase (d : Dict α) (k q : String) :
    Dict.hasKey (Dict.erase d k) q = if k = q then false else Dict.hasKey d q := by
  rw [Dict.hasKey_eq_isSome, Dict.getVal_erase]
  by_cases h : k = q
  · simp [h]
  · rw [if_neg h, if_neg h, Dict.hasKey_eq_isSome]

theorem Dict.hasKey_set_eq (d : Dict α) (k : String) (v : α) (q : String) :
    Dict.hasKey (Dict.set d k v) q = if k = q then true else Dict.hasKey d q := by
  rw [Dict.hasKey_eq_isSome, Dict.getVal_set]
  by_cases h : k = q
  · simp [h]
  · rw [if_neg h, if_neg h, Dict.hasKey_eq_isSome]

theorem Dict.nodup_keys_erase (d : Dict α) (k : String)
    (h : (Dict.keys d).Nodup) : (Dict.keys (Dict.erase d k)).Nodup := by
  rw [Dict.keys_erase]
  exact h.filter _

theorem Dict.mem_keys_set (d : Dict α) (k : String) (v : α) (q : String)
    (h : q ∈ Dict.keys (Dict.set d k v)) : q ∈ Dict.keys d ∨ q = k := by
  rw [Dict.keys_set] at h
  by_cases hd : Dict.hasKey d k
  · rw [if_pos hd] at h
    exact Or.inl h
  · rw [if_neg hd, List.mem_append] at h
    rcases h with h | h
    · exact Or.inl h
    · simp at h
      exact Or.inr h

theorem Dict.mem_keys_erase (d : Dict α) (k : String) (q : String)
    (h : q ∈ Dict.keys (Dict.erase d k)) : q ∈ Dict.keys d := by
  rw [Dict.keys_erase] at h
  exact List.mem_of_mem_filter h

theorem Dict.mem_set_cases (d : Dict α) (k : String) (v : α) (p : String × α)
    (h : p ∈ Dict.set d k v) : p ∈ d ∨ p = (k, v) := by
  induction d with
  | nil => simpa [Dict.set] using h
  | cons e d ih =>
    obtain ⟨k', v'⟩ := e
    by_cases hk : k' = k
    · subst hk
      have hs : Dict.set ((k', v') :: d) k' v = (k', v) :: d := by simp [Dict.set]
      rw [hs] at h
      rcases List.mem_cons.mp h with heq | hmem
      · exact Or.inr heq
      · exact Or.inl (List.mem_cons_of_mem _ hmem)
    · have hs : Dict.set ((k', v') :: d) k v = (k', v') :: Dict.set d k v := by
        simp [Dict.set, hk]
      rw [hs] at h
      rcases List.mem_cons.mp h with heq | hmem
      · exact Or.inl (by simp [heq])
      · rcases ih hmem with h2 | h2
        · exact Or.inl (List.mem_cons_of_mem _ h2)
        · exact Or.inr h2

theorem Dict.getVal_of_mem_nodup (d : Dict α) (k : String) (v : α)
    (hnd : (Dict.keys d).Nodup) (h : (k, v) ∈ d) : Dict.getVal d k = some v := by
  induction d with
  | nil => cases h
  | cons e d ih =>
    obtain ⟨k', v'⟩ := e
    rcases List.mem_cons.mp h with heq | hmem
    · cases heq
      simp [Dict.getVal]
    · have hk : ¬ k' = k := by
        intro hkk
        subst hkk
        exact (List.nodup_cons.mp hnd).1 (by
          rw [List.mem_map]
          exact ⟨(k', v), hmem, rfl⟩)
      simp only [Dict.getVal, if_neg hk]
      exact ih (List.nodup_cons.mp hnd).2 hmem

theorem Dict.fst_get_eq_keys_get (d : Dict α) (j : Nat) (h : j < d.length)
    (h2 : j < (Dict.keys d).length) :
    (d.get ⟨j, h⟩).1 = (Dict.keys d).get ⟨j, h2⟩ := by
  simp [Dict.keys]

theorem Dict.getVal_get_of_nodup (d : Dict α) (hnd : (Dict.keys d).Nodup)
    (j : Nat) (h : j < d.length) :
    Dict.getVal d ((d.get ⟨j, h⟩).1) = some ((d.get ⟨j, h⟩).2) :=
  Dict.getVal_of_mem_nodup d _ _ hnd (by
    have hm := List.get_mem d j h
    simpa using hm)

theorem Dict.getq_set_of_ne (k : String) (v : α) :
    ∀ (d : Dict α) (j : Nat), j < d.length →
      (∀ p, d[j]? = some p → p.1 ≠ k) → (Dict.set d k v)[j]? = d[j]? := by
  intro d
  induction d with
  | nil => intro j hj; cases hj
  | cons e d ih =>
    intro j hj hne
    obtain ⟨k', v'⟩ := e
    by_cases hk : k' = k
    · subst hk
      have hs : Dict.set ((k', v') :: d) k' v = (k', v) :: d := by simp [Dict.set]
      rw [hs]
      match j with
      | 0 => exact absurd rfl (hne (k', v') (by simp))
      | Nat.succ j => simp
    · have hs : Dict.set ((k', v') :: d) k v = (k', v') :: Dict.set d k v := by
        simp [Dict.set, hk]
      rw [hs]
      match j with
      | 0 => simp
      | Nat.succ j =>
        simp only [List.getElem?_cons_succ]
        exact ih j (by simpa using hj) (fun p hp => hne p (by simpa using hp))

theorem Dict.get_set_of_ne (k : String) (v : α) (d : Dict α) (j : Nat)
    (h : j < d.length) (h2 : j < (Dict.set d k v).length)
    (hne : (d.get ⟨j, h⟩).1 ≠ k) : (Dict.set d k v).get ⟨j, h2⟩ = d.get ⟨j, h⟩ := by
  have hq := Dict.getq_set_of_ne k v d j h (by
    intro p hp
    rw [List.getElem?_eq_getElem h] at hp
    have : p = d.get ⟨j, h⟩ := by
      simp only [List.get_eq_getElem]
      exact (Option.some.inj hp).symm
    rw [this]
    exact hne)
  rw [List.getElem?_eq_getElem h, List.getElem?_eq_getElem h2] at hq
  have := Option.some.inj hq
  simpa [List.get_eq_getElem] using this

theorem Dict.length_set_of_hasKey (d : Dict α) (k : String) (v : α)
    (h : Dict.hasKey d k = true) : (Dict.set d k v).length = d.length := by
  rw [Dict.length_set, if_pos h]

/-- Keys of `foldl set · true` frontiers: characterization, distinctness and
prefix stability. -/
theorem keys_foldl_setTrue_nodup (ps : List Path) :
    ∀ (d : Dict Bool), (Dict.keys d).Nodup →
      (Dict.keys (ps.foldl (fun d p => Dict.set d p true) d)).Nodup := by
  induction ps with
  | nil => exact fun d h => h
  | cons q ps ih =>
    intro d h
    exact ih _ (Dict.nodup_keys_set d q true h)

theorem keys_foldl_setTrue_prefix (ps : List Path) :
    ∀ (d : Dict Bool), Dict.keys d <+: Dict.keys (ps.foldl (fun d p => Dict.set d p true) d) := by
  induction ps with
  | nil => exact fun d => List.prefix_refl _
  | cons q ps ih =>
    intro d
    exact (Dict.keys_set_prefix d q true).trans (ih _)

theorem mem_keys_foldl_setTrue (ps : List Path) :
    ∀ (d : Dict Bool) (p : Path),
      p ∈ Dict.keys (ps.foldl (fun d p => Dict.set d p true) d) ↔ p ∈ ps ∨ p ∈ Dict.keys d := by
  intro d p
  have h := getVal_foldl_setTrue ps d p
  constructor
  · intro hm
    by_cases hp : p ∈ ps
    · exact Or.inl hp
    · rw [if_neg hp] at h
      right
      rw [← Dict.hasKey_iff, Dict.hasKey_eq_isSome] at hm ⊢
      rw [← h]
      exact hm
  · intro hm
    rw [← Dict.hasKey_iff, Dict.hasKey_eq_isSome, h]
    by_cases hp : p ∈ ps
    · simp [hp]
    · rw [if_neg hp]
      rcases hm with hm | hm
      · exact absurd hm hp
      · rw [← Dict.hasKey_eq_isSome]
        exact (Dict.hasKey_iff d p).mpr hm

/-- The frontier carried by an extraction result. -/
def ExtRes.front : ExtRes → Dict Bool
  | .excRaised ft => ft
  | .doneOk _ ft => ft

theorem getFulltextCache_frontier (env : CacheEnv) (inc : Bool) (index : Path)
    (fuel : Nat) (p : Path) (ft : Dict Bool) (r : ExtRes)
    (h : getFulltextCache env inc index fuel p ft = some r) :
    frontierExtends ft (ExtRes.front r) := by
  unfold getFulltextCache at h
  match hc : extractCall env inc index fuel (.doPage p ft) with
  | none => rw [hc] at h; cases h
  | some (.excRaised f) =>
    rw [hc] at h
    cases h
    exact extractCall_frontier env inc index fuel _ _ hc
  | some (.pageDone t f) =>
    rw [hc] at h
    cases h
    exact extractCall_frontier env inc index fuel _ _ hc
  | some (.walkDone rs f) => rw [hc] at h; cases h

/-- What one drain iteration can do to the per-record state: the frontier only
extends; the cache changes at most at the processed path; the processed path,
if (still) cached afterwards, has an existing source; cache-key distinctness is
preserved; and the only key possibly added to the cache is the processed one. -/
theorem drainStep_cases (env : CacheEnv) (inc : Bool) (index : Path) (W : Nat)
    (id : RecId) (hfuel : Nat) (p : Path) (b : Bool) (st st2 : RecSt)
    (h : drainStep env inc index W id hfuel p b st = some st2) :
    frontierExtends st.front st2.front ∧
    (∀ k, k ≠ p → Dict.getVal st2.cache k = Dict.getVal st.cache k) ∧
    (Dict.hasKey st2.cache p = true → env.mtime index p ≠ none) ∧
    ((Dict.keys st.cache).Nodup → (Dict.keys st2.cache).Nodup) ∧
    (∀ k, k ∈ Dict.keys st2.cache → k ∈ Dict.keys st.cache ∨ k = p) := by
  unfold drainStep at h
  by_cases hb : b = false
  · rw [if_pos hb] at h
    by_cases hc : Dict.hasKey st.cache p
    · rw [if_pos hc] at h
      cases h
      refine ⟨by rw [reportUpd_front]; exact frontierExtends_refl _, ?_, ?_, ?_, ?_⟩
      · intro k hk
        show Dict.getVal (Dict.erase (reportUpd id st).cache p) k = _
        rw [reportUpd_cache, Dict.getVal_erase, if_neg (fun hh => hk hh.symm)]
      · intro hk
        rw [show (({ reportUpd id st with
              cache := Dict.erase (reportUpd id st).cache p } : RecSt)).cache
            = Dict.erase (reportUpd id st).cache p from rfl, Dict.hasKey_erase,
          if_pos rfl] at hk
        cases hk
      · intro hnd
        show (Dict.keys (Dict.erase (reportUpd id st).cache p)).Nodup
        rw [reportUpd_cache]
        exact Dict.nodup_keys_erase _ _ hnd
      · intro k hk
        show k ∈ Dict.keys st.cache ∨ k = p
        replace hk : k ∈ Dict.keys (Dict.erase (reportUpd id st).cache p) := hk
        rw [reportUpd_cache] at hk
        exact Or.inl (Dict.mem_keys_erase _ _ _ hk)
    · rw [if_neg hc] at h
      cases h
      exact ⟨frontierExtends_refl _, fun k _ => rfl, fun hk => absurd hk hc,
        fun hnd => hnd, fun k hk => Or.inl hk⟩
  · rw [if_neg hb] at h
    match hm : env.mtime index p with
    | none =>
      simp only [hm] at h
      by_cases hc : Dict.hasKey st.cache p
      · rw [if_pos (by simpa using hc)] at h
        cases h
        refine ⟨?_, ?_, ?_, ?_, ?_⟩
        · rw [reportUpd_front]
          exact frontierExtends_set_false st.front p
        · intro k hk
          show Dict.getVal (Dict.erase (reportUpd id _).cache p) k = _
          rw [reportUpd_cache, Dict.getVal_erase, if_neg (fun hh => hk hh.symm)]
        · intro hk
          replace hk : Dict.hasKey (Dict.erase (reportUpd id _).cache p) p = true := hk
          rw [Dict.hasKey_erase, if_pos rfl] at hk
          cases hk
        · intro hnd
          show (Dict.keys (Dict.erase (reportUpd id _).cache p)).Nodup
          rw [reportUpd_cache]
          exact Dict.nodup_keys_erase _ _ hnd
        · intro k hk
          replace hk : k ∈ Dict.keys (Dict.erase (reportUpd id _).cache p) := hk
          rw [reportUpd_cache] at hk
          exact Or.inl (Dict.mem_keys_erase _ _ _ hk)
      · rw [if_neg (by simpa using hc)] at h
        cases h
        exact ⟨frontierExtends_set_false st.front p, fun k _ => rfl,
          fun hk => absurd hk hc, fun hnd => hnd, fun k hk => Or.inl hk⟩
    | some m =>
      simp only [hm] at h
      by_cases hcont : Dict.hasKey st.cache p = true ∧ m ≤ W
      · rw [if_pos hcont] at h
        cases h
        exact ⟨frontierExtends_set_false st.front p, fun k _ => rfl,
          fun _ => by simp [hm], fun hnd => hnd, fun k hk => Or.inl hk⟩
      · rw [if_neg hcont] at h
        rw [reportUpd_front] at h
        match hext : getFulltextCache env inc index hfuel p (Dict.set st.front p false) with
        | none => rw [hext] at h; cases h
        | some (.excRaised ftE) =>
          rw [hext] at h
          cases h
          have hfr := getFulltextCache_frontier env inc index hfuel p _ _ hext
          refine ⟨?_, ?_, fun _ => by simp [hm], ?_, ?_⟩
          · exact frontierExtends_trans (frontierExtends_set_false st.front p) hfr
          · intro k hk
            show Dict.getVal (Dict.set (reportUpd id _).cache p "") k = _
            rw [reportUpd_cache, Dict.getVal_set, if_neg (fun hh => hk hh.symm)]
          · intro hnd
            show (Dict.keys (Dict.set (reportUpd id _).cache p "")).Nodup
            rw [reportUpd_cache]
            exact Dict.nodup_keys_set _ _ _ hnd
          · intro k hk
            replace hk : k ∈ Dict.keys (Dict.set (reportUpd id _).cache p "") := hk
            rw [reportUpd_cache] at hk
            exact Dict.mem_keys_set _ _ _ _ hk
        | some (.doneOk t ftE) =>
          rw [hext] at h
          cases h
          have hfr := getFulltextCache_frontier env inc index hfuel p _ _ hext
          refine ⟨?_, ?_, fun _ => by simp [hm], ?_, ?_⟩
          · exact frontierExtends_trans (frontierExtends_set_false st.front p) hfr
          · intro k hk
            show Dict.getVal (Dict.set (reportUpd id _).cache p (t.getD "")) k = _
            rw [reportUpd_cache, Dict.getVal_set, if_neg (fun hh => hk hh.symm)]
          · intro hnd
            show (Dict.keys (Dict.set (reportUpd id _).cache p (t.getD ""))).Nodup
            rw [reportUpd_cache]
            exact Dict.nodup_keys_set _ _ _ hnd
          · intro k hk
            replace hk : k ∈ Dict.keys (Dict.set (reportUpd id _).cache p (t.getD "")) := hk
            rw [reportUpd_cache] at hk
            exact Dict.mem_keys_set _ _ _ _ hk

theorem Dict.fst_get_mem_keys (d : Dict α) (j : Nat) (h : j < d.length) :
    (d.get ⟨j, h⟩).1 ∈ Dict.keys d := by
  rw [Dict.keys, List.mem_map]
  exact ⟨d.get ⟨j, h⟩, List.get_mem d j h, rfl⟩

/-- Positions of old frontier entries keep their keys when the frontier only
extends. -/
theorem keyAt_stable_of_extends (a b : Dict Bool) (hpre : Dict.keys a <+: Dict.keys b)
    (j : Nat) (ha : j < a.length) (hb : j < b.length) :
    (b.get ⟨j, hb⟩).1 = (a.get ⟨j, ha⟩).1 := by
  rw [Dict.fst_get_eq_keys_get a j ha (by rw [Dict.keys_length]; exact ha),
    Dict.fst_get_eq_keys_get b j hb (by rw [Dict.keys_length]; exact hb)]
  simp only [List.get_eq_getElem]
  exact (hpre.getElem (by rw [Dict.keys_length]; exact ha)).symm

theorem length_le_of_frontierExtends {a b : Dict Bool} (h : frontierExtends a b) :
    a.length ≤ b.length := by
  have := h.1.length_le
  rwa [Dict.keys_length, Dict.keys_length] at this

/-- Whole-drain facts: the frontier only extends, the fuel bounds the final
frontier length, cache-key distinctness is preserved, and cache keys stay
inside the frontier keys. -/
theorem drainGo_facts (env : CacheEnv) (inc : Bool) (index : Path) (W : Nat)
    (id : RecId) (hfuel : Nat) :
    ∀ (fuel i : Nat) (st st2 : RecSt),
      drainGo env inc index W id hfuel fuel i st = some st2 →
      frontierExtends st.front st2.front ∧
      st2.front.length + 1 ≤ i + fuel ∧
      ((Dict.keys st.cache).Nodup → (Dict.keys st2.cache).Nodup) ∧
      ((∀ k, k ∈ Dict.keys st.cache → k ∈ Dict.keys st.front) →
        ∀ k, k ∈ Dict.keys st2.cache → k ∈ Dict.keys st2.front) := by
  intro fuel
  induction fuel with
  | zero => intro i st st2 h; simp [drainGo] at h
  | succ fuel ih =>
    intro i st st2 h
    rw [drainGo] at h
    by_cases hlen : i < st.front.length
    · rw [dif_pos hlen] at h
      match hstep : drainStep env inc index W id hfuel (st.front.get ⟨i, hlen⟩).1
          (st.front.get ⟨i, hlen⟩).2 st with
      | none => rw [hstep] at h; cases h
      | some st1 =>
        rw [hstep] at h
        obtain ⟨hfr, hcne, _, hnd, hsub⟩ := drainStep_cases env inc index W id hfuel _ _ st st1 hstep
        obtain ⟨ihfr, ihlen, ihnd, ihsub⟩ := ih (i + 1) st1 st2 h
        refine ⟨frontierExtends_trans hfr ihfr, by omega, fun hn => ihnd (hnd hn), ?_⟩
        intro hcin k hk
        refine ihsub ?_ k hk
        intro k2 hk2
        rcases hsub k2 hk2 with h2 | h2
        · exact hfr.1.subset (hcin k2 h2)
        · subst h2
          exact hfr.1.subset (Dict.fst_get_mem_keys st.front i hlen)
    · rw [dif_neg hlen] at h
      cases h
      exact ⟨frontierExtends_refl _, by omega, fun hn => hn, fun hcin => hcin⟩

/-- Every path cached after a completed drain has an existing source, provided
every initially cached path either has one or still sits in the unprocessed
tail of the frontier. -/
theorem drainGo_mtime (env : CacheEnv) (inc : Bool) (index : Path) (W : Nat)
    (id : RecId) (hfuel : Nat) :
    ∀ (fuel i : Nat) (st st2 : RecSt),
      drainGo env inc index W id hfuel fuel i st = some st2 →
      (∀ p, Dict.hasKey st.cache p = true → env.mtime index p ≠ none ∨
        ∃ j, i ≤ j ∧ ∃ (hj : j < st.front.length), (st.front.get ⟨j, hj⟩).1 = p) →
      ∀ p, Dict.hasKey st2.cache p = true → env.mtime index p ≠ none := by
  intro fuel
  induction fuel with
  | zero => intro i st st2 h; simp [drainGo] at h
  | succ fuel ih =>
    intro i st st2 h hinv
    rw [drainGo] at h
    by_cases hlen : i < st.front.length
    · rw [dif_pos hlen] at h
      match hstep : drainStep env inc index W id hfuel (st.front.get ⟨i, hlen⟩).1
          (st.front.get ⟨i, hlen⟩).2 st with
      | none => rw [hstep] at h; cases h
      | some st1 =>
        rw [hstep] at h
        obtain ⟨hfr, hcne, hcp, _, _⟩ := drainStep_cases env inc index W id hfuel _ _ st st1 hstep
        refine ih (i + 1) st1 st2 h ?_
        intro p hp
        rcases eq_or_ne p (st.front.get ⟨i, hlen⟩).1 with rfl | hne
        · exact Or.inl (hcp hp)
        · have hp0 : Dict.hasKey st.cache p = true := by
            rw [Dict.hasKey_eq_isSome] at hp ⊢
            rw [← hcne p hne]
            exact hp
          rcases hinv p hp0 with hmt | ⟨j, hij, hj, hkey⟩
          · exact Or.inl hmt
          · right
            rcases Nat.lt_or_ge i j with hij2 | hij2
            · have hj2 : j < st1.front.length :=
                lt_of_lt_of_le hj (length_le_of_frontierExtends hfr)
              exact ⟨j, by omega, hj2, by
                rw [keyAt_stable_of_extends st.front st1.front hfr.1 j hj hj2]
                exact hkey⟩
            · exfalso
              have hji : j = i := by omega
              subst hji
              exact hne hkey.symm
    · rw [dif_neg hlen] at h
      cases h
      intro p hp
      rcases hinv p hp with hmt | ⟨j, hij, hj, _⟩
      · exact hmt
      · omega

/-- A key of the frontier that never occurs in the unprocessed tail keeps its
cache binding across the rest of the drain. -/
theorem drainGo_key_stable (env : CacheEnv) (inc : Bool) (index : Path) (W : Nat)
    (id : RecId) (hfuel : Nat) (k : Path) :
    ∀ (fuel i : Nat) (st st2 : RecSt),
      drainGo env inc index W id hfuel fuel i st = some st2 →
      (Dict.keys st.front).Nodup →
      k ∈ Dict.keys st.front →
      (∀ j, i ≤ j → ∀ (hj : j < st.front.length), (st.front.get ⟨j, hj⟩).1 ≠ k) →
      Dict.getVal st2.cache k = Dict.getVal st.cache k := by
  intro fuel
  induction fuel with
  | zero => intro i st st2 h; simp [drainGo] at h
  | succ fuel ih =>
    intro i st st2 h hnd hk htail
    rw [drainGo] at h
    by_cases hlen : i < st.front.length
    · rw [dif_pos hlen] at h
      match hstep : drainStep env inc index W id hfuel (st.front.get ⟨i, hlen⟩).1
          (st.front.get ⟨i, hlen⟩).2 st with
      | none => rw [hstep] at h; cases h
      | some st1 =>
        rw [hstep] at h
        obtain ⟨hfr, hcne, _, _, _⟩ := drainStep_cases env inc index W id hfuel _ _ st st1 hstep
        have hpn : (st.front.get ⟨i, hlen⟩).1 ≠ k := htail i (le_refl i) hlen
        have hnd1 : (Dict.keys st1.front).Nodup := hfr.2.1 hnd
        have hk1 : k ∈ Dict.keys st1.front := hfr.1.subset hk
        have htail1 : ∀ j, i + 1 ≤ j → ∀ (hj1 : j < st1.front.length),
            (st1.front.get ⟨j, hj1⟩).1 ≠ k := by
          intro j hij hj1
          by_cases hjold : j < st.front.length
          · have e := keyAt_stable_of_extends st.front st1.front hfr.1 j hjold hj1
            exact fun hkeq => htail j (by omega) hjold (e.symm.trans hkeq)
          · intro hkeq
            obtain ⟨pos, hpos⟩ := List.mem_iff_get.mp hk
            have h1 : (pos : Nat) < st.front.length :=
              lt_of_lt_of_eq pos.2 (Dict.keys_length st.front)
            have hposlen : (pos : Nat) < st1.front.length := by
              have h2 := length_le_of_frontierExtends hfr
              omega
            have hklen : (pos : Nat) < (Dict.keys st1.front).length :=
              lt_of_lt_of_eq hposlen (Dict.keys_length st1.front).symm
            have hjk : j < (Dict.keys st1.front).length :=
              lt_of_lt_of_eq hj1 (Dict.keys_length st1.front).symm
            have e1 : (st1.front.get ⟨pos, hposlen⟩).1 = k := by
              have ekey := keyAt_stable_of_extends st.front st1.front hfr.1 pos h1 hposlen
              have e2 : (st.front.get ⟨(pos : Nat), h1⟩).1 = k := by
                rw [Dict.fst_get_eq_keys_get st.front pos h1
                  (lt_of_lt_of_eq h1 (Dict.keys_length st.front).symm)]
                exact hpos
              exact ekey.trans e2
            have einj : (⟨(pos : Nat), hklen⟩ : Fin (Dict.keys st1.front).length)
                = ⟨j, hjk⟩ := by
              apply List.nodup_iff_injective_get.mp hnd1
              rw [← Dict.fst_get_eq_keys_get st1.front pos hposlen hklen,
                ← Dict.fst_get_eq_keys_get st1.front j hj1 hjk]
              rw [e1, hkeq]
            have hpj : (pos : Nat) = j := congrArg Fin.val einj
            omega
        have hstable := ih (i + 1) st1 st2 h hnd1 hk1 htail1
        rw [hstable, hcne k (fun hh => hpn hh.symm)]
    · rw [dif_neg hlen] at h
      cases h
      rfl

theorem keys_nodup_get_ne (d : Dict Bool) (hnd : (Dict.keys d).Nodup)
    (i j : Nat) (hi : i < d.length) (hj : j < d.length) (hij : i ≠ j) :
    (d.get ⟨i, hi⟩).1 ≠ (d.get ⟨j, hj⟩).1 := by
  intro he
  rw [Dict.fst_get_eq_keys_get d i hi (lt_of_lt_of_eq hi (Dict.keys_length d).symm),
    Dict.fst_get_eq_keys_get d j hj (lt_of_lt_of_eq hj (Dict.keys_length d).symm)] at he
  have := List.nodup_iff_injective_get.mp hnd he
  exact hij (congrArg Fin.val this)

/-- The per-path condition under which the drain leaves a record's cache
alone: the path is cached with a source not newer than the watermark, or it is
uncached and its source is missing. -/
def SkipCond (env : CacheEnv) (index : Path) (W : Nat) (cache : Dict String)
    (k : Path) : Prop :=
  (Dict.hasKey cache k = true ∧ ∃ m, env.mtime index k = some m ∧ m ≤ W) ∨
  (Dict.hasKey cache k = false ∧ env.mtime index k = none)

/-- A drain over a frontier of pending paths that all satisfy `SkipCond`
finishes without touching the cache, emitting no event and extracting
nothing. -/
theorem drain2_noop (env : CacheEnv) (inc : Bool) (index : Path) (W : Nat)
    (id : RecId) (hfuel : Nat) (cache : Dict String) :
    ∀ (fuel i : Nat) (st : RecSt),
      st.cache = cache → st.hasUpd = false → st.log = [] → st.exts = [] →
      (Dict.keys st.front).Nodup →
      (∀ k, k ∈ Dict.keys st.front → SkipCond env index W cache k) →
      (∀ j, i ≤ j → ∀ (hj : j < st.front.length), (st.front.get ⟨j, hj⟩).2 = true) →
      i ≤ st.front.length →
      st.front.length + 1 ≤ i + fuel →
      ∃ ftF, drainGo env inc index W id hfuel fuel i st
        = some ⟨ftF, cache, false, [], []⟩ := by
  intro fuel
  induction fuel with
  | zero =>
    intro i st _ _ _ _ _ _ _ hile hfl
    omega
  | succ fuel ih =>
    intro i st hcache hupd hlog hexts hnd hskip hstatus hile hfl
    by_cases hlen : i < st.front.length
    · have hbtrue : (st.front.get ⟨i, hlen⟩).2 = true := hstatus i (le_refl i) hlen
      have hpmem : (st.front.get ⟨i, hlen⟩).1 ∈ Dict.keys st.front :=
        Dict.fst_get_mem_keys st.front i hlen
      have hpfront : Dict.hasKey st.front ((st.front.get ⟨i, hlen⟩).1) = true :=
        (Dict.hasKey_iff _ _).mpr hpmem
      have hstep : drainStep env inc index W id hfuel (st.front.get ⟨i, hlen⟩).1 true st
          = some { st with front := Dict.set st.front ((st.front.get ⟨i, hlen⟩).1) false } := by
        rcases hskip _ hpmem with ⟨hck, m, hmt, hle⟩ | ⟨hck, hmt⟩
        · unfold drainStep
          rw [if_neg (by simp : ¬ (true = false))]
          simp only [hmt]
          rw [if_pos ⟨by rw [hcache]; exact hck, hle⟩]
        · unfold drainStep
          rw [if_neg (by simp : ¬ (true = false))]
          simp only [hmt]
          rw [if_neg (by
            show ¬ Dict.hasKey st.cache ((st.front.get ⟨i, hlen⟩).1) = true
            rw [hcache, hck]
            simp)]
      have hfront1 : Dict.keys (Dict.set st.front ((st.front.get ⟨i, hlen⟩).1) false)
          = Dict.keys st.front := by
        rw [Dict.keys_set, if_pos hpfront]
      have hlen1 : (Dict.set st.front ((st.front.get ⟨i, hlen⟩).1) false).length
          = st.front.length := Dict.length_set_of_hasKey _ _ _ hpfront
      have hrec := ih (i + 1)
        { st with front := Dict.set st.front ((st.front.get ⟨i, hlen⟩).1) false }
        hcache hupd hlog hexts
        (by show (Dict.keys (Dict.set _ _ _)).Nodup; rw [hfront1]; exact hnd)
        (by
          intro k hk
          show SkipCond env index W cache k
          apply hskip
          rw [← hfront1]
          exact hk)
        (by
          intro j hij hj
          show ((Dict.set st.front ((st.front.get ⟨i, hlen⟩).1) false).get ⟨j, hj⟩).2 = true
          have hjlen : j < st.front.length := by rw [← hlen1]; exact hj
          have hne : (st.front.get ⟨j, hjlen⟩).1 ≠ (st.front.get ⟨i, hlen⟩).1 :=
            keys_nodup_get_ne st.front hnd j i hjlen hlen (by omega)
          rw [Dict.get_set_of_ne _ _ st.front j hjlen hj hne]
          exact hstatus j (by omega) hjlen)
        (by
          show i + 1 ≤ (Dict.set st.front _ _).length
          rw [hlen1]
          omega)
        (by
          show (Dict.set st.front _ _).length + 1 ≤ (i + 1) + fuel
          rw [hlen1]
          omega)
      obtain ⟨ftF, hrec⟩ := hrec
      refine ⟨ftF, ?_⟩
      rw [drainGo, dif_pos hlen]
      have hpb : st.front.get ⟨i, hlen⟩ = ((st.front.get ⟨i, hlen⟩).1, true) := by
        rw [← hbtrue]
      rw [show (st.front.get ⟨i, hlen⟩).2 = true from hbtrue]
      rw [hstep]
      exact hrec
    · refine ⟨st.front, ?_⟩
      rw [drainGo, dif_neg hlen]
      obtain ⟨sf, sc, su, sl, se⟩ := st
      simp only at hcache hupd hlog hexts
      rw [hcache, hupd, hlog, hexts]

/-- A cached record backed by an archive container not newer than the
watermark is skipped: no frontier, no extraction, no event, mapping
unchanged. -/
theorem processRecord_archive_skip (env : CacheEnv) (inc : Bool) (W : Nat)
    (hfuel dfuel : Nat) (ft : Fulltext) (id : RecId) (index : Path)
    (hft : Dict.hasKey ft id = true)
    (harc : env.isArchive index = true)
    (hmt : env.archiveMtime index ≤ W)
    (hd1 : 1 ≤ dfuel) :
    processRecord env inc W hfuel dfuel ft id index = some (ft, [], []) := by
  have hcol : collectFiles env W index (Dict.hasKey ft id) ((Dict.getVal ft id).getD [])
      = [] := by
    rw [hft]
    unfold collectFiles
    rw [if_neg (by simp), if_pos ⟨harc, hmt⟩]
  simp only [processRecord]
  rw [hcol]
  match dfuel, hd1 with
  | Nat.succ dfuel, _ =>
    rw [drainGo, dif_neg (by simp)]
    simp only
    congr 1
    obtain ⟨v, hv⟩ := (Dict.hasKey_eq_true_iff ft id).mp hft
    rw [hv]
    simp [Dict.set_getVal_self ft id v hv]

/-- A record whose invariants from a completed first run hold is processed
without any change by a second run whose watermark dominates every source
mtime. -/
theorem processRecord_fixed (env : CacheEnv) (inc : Bool) (W : Nat)
    (hfuel dfuel : Nat) (ft : Fulltext) (id : RecId) (index : Path)
    (hm : ∀ x p m, env.mtime x p = some m → m ≤ W)
    (ha : ∀ x, env.isArchive x = true → env.archiveMtime x ≤ W)
    (hhk : Dict.hasKey ft id = true)
    (cacheF : Dict String) (hget : Dict.getVal ft id = some cacheF)
    (hI2 : env.isArchive index = false →
      ∀ p, Dict.hasKey cacheF p = true → env.mtime index p ≠ none)
    (hI3 : env.isArchive index = false →
      ∀ q, env.indexPaths index = [q] → env.mtime index q ≠ none →
        Dict.hasKey cacheF q = true)
    (hsingle : env.isArchive index = false → ∃ q, env.indexPaths index = [q])
    (hfb : env.isArchive index = false →
      (collectFiles env W index true cacheF).length + 1 ≤ dfuel)
    (hd1 : 1 ≤ dfuel) :
    processRecord env inc W hfuel dfuel ft id index = some (ft, [], []) := by
  by_cases harc : env.isArchive index = true
  · exact processRecord_archive_skip env inc W hfuel dfuel ft id index hhk harc
      (ha index harc) hd1
  · replace harc : env.isArchive index = false := by simpa using harc
    obtain ⟨q, hq⟩ := hsingle harc
    have hnoskip : ¬ (env.isArchive index = true ∧ env.archiveMtime index ≤ W) := by
      rintro ⟨h1, _⟩
      rw [harc] at h1
      cases h1
    have hcol : collectFiles env W index true cacheF
        = (Dict.keys cacheF).foldl (fun d p => Dict.set d p true)
            ((env.indexPaths index).foldl (fun d p => Dict.set d p true) []) := by
      unfold collectFiles
      rw [if_neg (by simp), if_neg hnoskip]
    have hcolkeys : ∀ k, k ∈ Dict.keys (collectFiles env W index true cacheF) ↔
        k ∈ env.indexPaths index ∨ k ∈ Dict.keys cacheF := by
      intro k
      rw [hcol, mem_keys_foldl_setTrue, mem_keys_foldl_setTrue]
      simp only [show Dict.keys ([] : Dict Bool) = [] from rfl, List.not_mem_nil, or_false]
      tauto
    have hcolnd : (Dict.keys (collectFiles env W index true cacheF)).Nodup := by
      rw [hcol]
      exact keys_foldl_setTrue_nodup _ _ (keys_foldl_setTrue_nodup _ _ List.nodup_nil)
    have hcolval : ∀ k, k ∈ Dict.keys (collectFiles env W index true cacheF) →
        Dict.getVal (collectFiles env W index true cacheF) k = some true := by
      intro k hk
      rw [hcol, getVal_foldl_setTrue, getVal_foldl_setTrue]
      rcases (hcolkeys k).mp hk with h1 | h1
      · by_cases h2 : k ∈ Dict.keys cacheF <;> simp [h1, h2]
      · simp [h1]
    have hskip : ∀ k, k ∈ Dict.keys (collectFiles env W index true cacheF) →
        SkipCond env index W cacheF k := by
      intro k hk
      by_cases hck : k ∈ Dict.keys cacheF
      · have hck2 : Dict.hasKey cacheF k = true := (Dict.hasKey_iff _ _).mpr hck
        have hmt := hI2 harc k hck2
        match hmv : env.mtime index k with
        | none => exact absurd hmv hmt
        | some m => exact Or.inl ⟨hck2, m, hmv, hm index k m hmv⟩
      · have hkq : k = q := by
          rcases (hcolkeys k).mp hk with h1 | h1
          · rw [hq] at h1
            simpa using h1
          · exact absurd h1 hck
        subst hkq
        match hmv : env.mtime index k with
        | some m =>
          have := hI3 harc k hq (by rw [hmv]; simp)
          exact absurd ((Dict.hasKey_iff _ _).mp this) hck
        | none =>
          refine Or.inr ⟨?_, hmv⟩
          rw [← Bool.not_eq_true, Dict.hasKey_iff]
          exact hck
    have hstatus : ∀ j, (0 : Nat) ≤ j →
        ∀ (hj : j < (collectFiles env W index true cacheF).length),
          ((collectFiles env W index true cacheF).get ⟨j, hj⟩).2 = true := by
      intro j _ hj
      have h1 := Dict.getVal_get_of_nodup _ hcolnd j hj
      have h2 := hcolval _ (Dict.fst_get_mem_keys _ j hj)
      rw [h2] at h1
      exact (Option.some.inj h1).symm
    obtain ⟨ftF, hdrain⟩ := drain2_noop env inc index W id hfuel cacheF dfuel 0
      ⟨collectFiles env W index true cacheF, cacheF, false, [], []⟩
      rfl rfl rfl rfl hcolnd hskip hstatus (by omega) (by
        show (collectFiles env W index true cacheF).length + 1 ≤ 0 + dfuel
        have := hfb harc
        omega)
    simp only [processRecord]
    rw [hhk, hget]
    simp only [Option.getD_some]
    rw [hdrain]
    simp [Dict.set_getVal_self ft id cacheF hget]

/-- A pending path whose source file exists is cached by its drain step,
whatever branch (skip, successful extraction, or handled failure) is taken. -/
theorem drainStep_pending_cached (env : CacheEnv) (inc : Bool) (index : Path)
    (W : Nat) (id : RecId) (hfuel : Nat) (p : Path) (m : Nat) (st st1out : RecSt)
    (hmv : env.mtime index p = some m)
    (h : drainStep env inc index W id hfuel p true st = some st1out) :
    Dict.hasKey st1out.cache p = true := by
  unfold drainStep at h
  rw [if_neg (by simp : ¬ (true = false))] at h
  simp only [hmv] at h
  by_cases hc : Dict.hasKey st.cache p = true ∧ m ≤ W
  · rw [if_pos hc] at h
    injection h with h2
    subst h2
    exact hc.1
  · rw [if_neg hc] at h
    rcases hext : getFulltextCache env inc index hfuel p
        (reportUpd id { st with front := Dict.set st.front p false }).front with _ | er
    · rw [hext] at h
      exact Option.noConfusion h
    · cases er with
      | excRaised f2 =>
        rw [hext] at h
        have h2 : some ({ reportUpd id { st with front := Dict.set st.front p false } with
            front := f2
            cache := Dict.set
              (reportUpd id { st with front := Dict.set st.front p false }).cache p ""
            log := (reportUpd id { st with front := Dict.set st.front p false }).log
              ++ [Ev.cacheFail id p]
            exts := (reportUpd id { st with front := Dict.set st.front p false }).exts
              ++ [p] }) = some st1out := h
        injection h2 with h3
        subst h3
        show Dict.hasKey (Dict.set
          (reportUpd id { st with front := Dict.set st.front p false }).cache p "") p = true
        rw [Dict.hasKey_set_eq]
        simp
      | doneOk t2 f2 =>
        rw [hext] at h
        have h2 : some ({ reportUpd id { st with front := Dict.set st.front p false } with
            front := f2
            cache := Dict.set
              (reportUpd id { st with front := Dict.set st.front p false }).cache p (t2.getD "")
            exts := (reportUpd id { st with front := Dict.set st.front p false }).exts
              ++ [p] }) = some st1out := h
        injection h2 with h3
        subst h3
        show Dict.hasKey (Dict.set
          (reportUpd id { st with front := Dict.set st.front p false }).cache p
            (t2.getD "")) p = true
        rw [Dict.hasKey_set_eq]
        simp

/-- Once a frontier key sitting at position 0 is cached, the rest of the
drain (continuing from position 1) keeps it cached. -/
theorem drain_keeps_q (env : CacheEnv) (inc : Bool) (index : Path) (W : Nat)
    (id : RecId) (hfuel : Nat) (d : Nat) (q : Path) (front0 : Dict Bool)
    (st1x st : RecSt)
    (hdrain1 : drainGo env inc index W id hfuel d 1 st1x = some st)
    (hfr : frontierExtends front0 st1x.front)
    (hnd0 : (Dict.keys front0).Nodup)
    (h0 : 0 < front0.length)
    (hq00 : (front0.get ⟨0, h0⟩).1 = q)
    (hck : Dict.hasKey st1x.cache q = true) :
    Dict.hasKey st.cache q = true := by
  have hnd1 : (Dict.keys st1x.front).Nodup := hfr.2.1 hnd0
  have h0x : 0 < st1x.front.length := lt_of_lt_of_le h0 (length_le_of_frontierExtends hfr)
  have hq0 : (st1x.front.get ⟨0, h0x⟩).1 = q :=
    (keyAt_stable_of_extends front0 st1x.front hfr.1 0 h0 h0x).trans hq00
  have hqmem : q ∈ Dict.keys st1x.front := hq0 ▸ Dict.fst_get_mem_keys st1x.front 0 h0x
  have htail : ∀ j, 1 ≤ j → ∀ (hj : j < st1x.front.length),
      (st1x.front.get ⟨j, hj⟩).1 ≠ q := by
    intro j h1j hj heq
    exact keys_nodup_get_ne st1x.front hnd1 j 0 hj h0x (by omega) (heq.trans hq0.symm)
  have hstable := drainGo_key_stable env inc index W id hfuel q d 1 st1x st
    hdrain1 hnd1 hqmem htail
  rw [Dict.hasKey_eq_isSome] at hck ⊢
  rw [hstable]
  exact hck

/-- Folding `set · true` over any path list keeps a head entry `(x, true)` in
place. -/
theorem foldl_setTrue_head (ps : List Path) :
    ∀ (x : Path) (d : Dict Bool),
      ∃ t, ps.foldl (fun d p => Dict.set d p true) ((x, true) :: d) = (x, true) :: t := by
  induction ps with
  | nil => exact fun x d => ⟨d, rfl⟩
  | cons p ps ih =>
    intro x d
    rw [List.foldl_cons]
    by_cases hxp : x = p
    · have hset : Dict.set ((x, true) :: d) p true = (x, true) :: d := by
        subst hxp
        simp [Dict.set]
      rw [hset]
      exact ih x d
    · have hset : Dict.set ((x, true) :: d) p true = (x, true) :: Dict.set d p true := by
        simp [Dict.set, hxp]
      rw [hset]
      exact ih x (Dict.set d p true)

/-- Over a whole drain whose frontier starts with pending entry `(q, true)`:
if the source of `q` exists, `q` ends up cached. -/
theorem drainGo_once_q (env : CacheEnv) (inc : Bool) (index : Path) (W : Nat)
    (id : RecId) (hfuel : Nat) (dfuel : Nat) (q : Path) (t : Dict Bool)
    (cache0 : Dict String) (st : RecSt)
    (hdrain : drainGo env inc index W id hfuel dfuel 0
      ⟨(q, true) :: t, cache0, false, [], []⟩ = some st)
    (hnd0 : (Dict.keys ((q, true) :: t : Dict Bool)).Nodup)
    (hmtq : env.mtime index q ≠ none) :
    Dict.hasKey st.cache q = true := by
  cases dfuel with
  | zero => simp [drainGo] at hdrain
  | succ d =>
    have h0len : 0 < (⟨(q, true) :: t, cache0, false, [], []⟩ : RecSt).front.length := by
      simp
    rw [drainGo, dif_pos h0len] at hdrain
    rw [show ((⟨(q, true) :: t, cache0, false, [], []⟩ : RecSt).front.get ⟨0, h0len⟩)
      = (q, true) from rfl] at hdrain
    rw [show ((q, true) : Path × Bool).1 = q from rfl,
      show ((q, true) : Path × Bool).2 = true from rfl] at hdrain
    have hdrain2 := hdrain
    rcases hmv : env.mtime index q with _ | m
    · exact absurd hmv hmtq
    · rcases hstep : drainStep env inc index W id hfuel q true
          ⟨(q, true) :: t, cache0, false, [], []⟩ with _ | st1x
      · rw [hstep] at hdrain2
        exact Option.noConfusion hdrain2
      · rw [hstep] at hdrain2
        have hdrain3 : drainGo env inc index W id hfuel d 1 st1x = some st := hdrain2
        have hck := drainStep_pending_cached env inc index W id hfuel q m _ st1x hmv hstep
        have hfr := (drainStep_cases env inc index W id hfuel q true _ st1x hstep).1
        exact drain_keeps_q env inc index W id hfuel d q ((q, true) :: t) st1x st
          hdrain3 hfr hnd0 (by simp) rfl hck

/-- Shape of a successful `processRecord`: the mapping is updated by writing
back the record's final cache under its id. -/
theorem processRecord_shape (env : CacheEnv) (inc : Bool) (W : Nat)
    (hfuel dfuel : Nat) (ft : Fulltext) (id : RecId) (index : Path)
    (ft2 : Fulltext) (l : List Ev) (e : List (RecId × Path))
    (h : processRecord env inc W hfuel dfuel ft id index = some (ft2, l, e)) :
    ∃ c, ft2 = Dict.set ft id c := by
  simp only [processRecord] at h
  rcases hdrain : drainGo env inc index W id hfuel dfuel 0
      ⟨collectFiles env W index (Dict.hasKey ft id) ((Dict.getVal ft id).getD []),
        (Dict.getVal ft id).getD [], false, [], []⟩ with _ | st
  · rw [hdrain] at h
    exact Option.noConfusion h
  · rw [hdrain] at h
    refine ⟨st.cache, ?_⟩
    have h2 : some ((Dict.set ft id st.cache, st.log, st.exts.map (fun p => (id, p)))
        : Fulltext × List Ev × List (RecId × Path)) = some (ft2, l, e) := h
    injection h2 with h3
    exact (congrArg Prod.fst h3).symm

/-- What one successful `processRecord` establishes about the record's slot:
the final cache is written back, its keys are distinct, and (for a
non-archive index with a single index path) every cached path has an existing
source, the index path is cached whenever its source exists, and the final
cache bounds the frontier any later run would collect. -/
theorem processRecord_establishes (env : CacheEnv) (inc : Bool) (W : Nat)
    (hfuel dfuel : Nat) (ft : Fulltext) (id : RecId) (index : Path)
    (hnd0 : (Dict.keys ((Dict.getVal ft id).getD [])).Nodup)
    (ft2 : Fulltext) (l : List Ev) (e : List (RecId × Path))
    (h : processRecord env inc W hfuel dfuel ft id index = some (ft2, l, e)) :
    ∃ cacheF, ft2 = Dict.set ft id cacheF ∧ (Dict.keys cacheF).Nodup ∧
      (env.isArchive index = false → ∀ q, env.indexPaths index = [q] →
        (∀ p, Dict.hasKey cacheF p = true → env.mtime index p ≠ none) ∧
        (env.mtime index q ≠ none → Dict.hasKey cacheF q = true) ∧
        (∀ W2, (collectFiles env W2 index true cacheF).length + 1 ≤ dfuel)) := by
  simp only [processRecord] at h
  rcases hdrain : drainGo env inc index W id hfuel dfuel 0
      ⟨collectFiles env W index (Dict.hasKey ft id) ((Dict.getVal ft id).getD []),
        (Dict.getVal ft id).getD [], false, [], []⟩ with _ | st
  · rw [hdrain] at h
    exact Option.noConfusion h
  · rw [hdrain] at h
    have h2 : some ((Dict.set ft id st.cache, st.log, st.exts.map (fun p => (id, p)))
        : Fulltext × List Ev × List (RecId × Path)) = some (ft2, l, e) := h
    injection h2 with h3
    refine ⟨st.cache, (congrArg Prod.fst h3).symm, ?_, ?_⟩
    · exact (drainGo_facts env inc index W id hfuel dfuel 0 _ st hdrain).2.2.1 hnd0
    · intro harc q hq
      have hsub0 : ∀ p, p ∈ Dict.keys ((Dict.getVal ft id).getD []) →
          p ∈ Dict.keys (collectFiles env W index (Dict.hasKey ft id)
            ((Dict.getVal ft id).getD [])) := by
        intro p hp
        by_cases hft : Dict.hasKey ft id = true
        · rw [hft]
          unfold collectFiles
          rw [if_neg (by simp), if_neg (by rintro ⟨h1, _⟩; rw [harc] at h1; cases h1)]
          rw [mem_keys_foldl_setTrue]
          exact Or.inl hp
        · have hcv : Dict.getVal ft id = none := by
            rw [Bool.not_eq_true] at hft
            exact (Dict.hasKey_eq_false_iff ft id).mp hft
          rw [hcv] at hp
          simp [Dict.keys] at hp
      have hhead : ∃ tl, collectFiles env W index (Dict.hasKey ft id)
          ((Dict.getVal ft id).getD []) = (q, true) :: tl := by
        by_cases hft : Dict.hasKey ft id = true
        · rw [hft]
          unfold collectFiles
          rw [if_neg (by simp), if_neg (by rintro ⟨h1, _⟩; rw [harc] at h1; cases h1)]
          rw [hq]
          rw [show (([q] : List Path).foldl (fun d p => Dict.set d p true) [])
            = [(q, true)] from rfl]
          exact foldl_setTrue_head _ q []
        · rw [Bool.not_eq_true] at hft
          rw [hft]
          unfold collectFiles
          rw [if_pos rfl, hq]
          exact ⟨[], rfl⟩
      have hndf : (Dict.keys (collectFiles env W index (Dict.hasKey ft id)
          ((Dict.getVal ft id).getD []))).Nodup := by
        by_cases hft : Dict.hasKey ft id = true
        · rw [hft]
          unfold collectFiles
          rw [if_neg (by simp), if_neg (by rintro ⟨h1, _⟩; rw [harc] at h1; cases h1)]
          exact keys_foldl_setTrue_nodup _ _ (keys_foldl_setTrue_nodup _ _ List.nodup_nil)
        · rw [Bool.not_eq_true] at hft
          rw [hft]
          unfold collectFiles
          rw [if_pos rfl]
          exact keys_foldl_setTrue_nodup _ _ List.nodup_nil
      obtain ⟨tl, hhead⟩ := hhead
      refine ⟨?_, ?_, ?_⟩
      · apply drainGo_mtime env inc index W id hfuel dfuel 0 _ st hdrain
        intro p hp
        right
        have hpf : p ∈ Dict.keys (collectFiles env W index (Dict.hasKey ft id)
            ((Dict.getVal ft id).getD [])) := hsub0 p ((Dict.hasKey_iff _ _).mp hp)
        obtain ⟨⟨n, hn⟩, hkey⟩ := List.mem_iff_get.mp hpf
        refine ⟨n, by omega, lt_of_lt_of_eq hn (Dict.keys_length _), ?_⟩
        rw [Dict.fst_get_eq_keys_get _ n (lt_of_lt_of_eq hn (Dict.keys_length _)) hn]
        exact hkey
      · intro hmtq
        have hdrainq := hdrain
        rw [hhead] at hdrainq
        exact drainGo_once_q env inc index W id hfuel dfuel q tl _ st hdrainq
          (by rw [← hhead]; exact hndf) hmtq
      · intro W2
        obtain ⟨hfr, hlenb, _, hsubf⟩ :=
          drainGo_facts env inc index W id hfuel dfuel 0 _ st hdrain
        have hcachesub : ∀ k, k ∈ Dict.keys st.cache → k ∈ Dict.keys st.front :=
          hsubf hsub0
        have hqf : q ∈ Dict.keys st.front := by
          apply hfr.1.subset
          show q ∈ Dict.keys (collectFiles env W index (Dict.hasKey ft id)
            ((Dict.getVal ft id).getD []))
          rw [hhead]
          simp [Dict.keys]
        have hcol2 : collectFiles env W2 index true st.cache
            = (Dict.keys st.cache).foldl (fun d p => Dict.set d p true)
                ((env.indexPaths index).foldl (fun d p => Dict.set d p true) []) := by
          unfold collectFiles
          rw [if_neg (by simp), if_neg (by rintro ⟨h1, _⟩; rw [harc] at h1; cases h1)]
        have hknd : (Dict.keys (collectFiles env W2 index true st.cache)).Nodup := by
          rw [hcol2]
          exact keys_foldl_setTrue_nodup _ _ (keys_foldl_setTrue_nodup _ _ List.nodup_nil)
        have hksub : ∀ k, k ∈ Dict.keys (collectFiles env W2 index true st.cache) →
            k ∈ Dict.keys st.front := by
          intro k hk
          rw [hcol2, mem_keys_foldl_setTrue] at hk
          rcases hk with hk | hk
          · exact hcachesub k hk
          · rw [mem_keys_foldl_setTrue] at hk
            rcases hk with hk | hk
            · rw [hq] at hk
              have hkq : k = q := by simpa using hk
              rw [hkq]
              exact hqf
            · rw [show Dict.keys ([] : Dict Bool) = [] from rfl] at hk
              exact absurd hk (by simp)
        have hsp : List.Subperm (Dict.keys (collectFiles env W2 index true st.cache))
            (Dict.keys st.front) := hknd.subperm (fun k hk => hksub k hk)
        have hlen2 := hsp.length_le
        rw [Dict.keys_length, Dict.keys_length] at hlen2
        omega

/-- Every inner cache dict of the fulltext mapping has distinct keys. -/
def WFi (ft : Fulltext) : Prop :=
  ∀ id c, Dict.getVal ft id = some c → (Dict.keys c).Nodup

/-- The per-record postcondition a completed generator run leaves in the
fulltext mapping: a record without an existing index file has no cache entry;
one with an existing index file has its final cache written back, with
distinct keys, and (for a non-archive single-path index) the mix of existing
sources, cached paths and a frontier bound that lets the next run's drain
terminate. -/
def RecordOK (env : CacheEnv) (dfuel : Nat) (ft : Fulltext) (id : RecId) :
    Option Path → Prop
  | none => Dict.hasKey ft id = false
  | some index =>
    if env.indexExists index = false then Dict.hasKey ft id = false
    else ∃ cacheF, Dict.getVal ft id = some cacheF ∧ (Dict.keys cacheF).Nodup ∧
      (env.isArchive index = false → ∀ q, env.indexPaths index = [q] →
        (∀ p, Dict.hasKey cacheF p = true → env.mtime index p ≠ none) ∧
        (env.mtime index q ≠ none → Dict.hasKey cacheF q = true) ∧
        (∀ W2, (collectFiles env W2 index true cacheF).length + 1 ≤ dfuel))

/-- The record loop never touches the slot of an id that does not occur in
the remaining metadata. -/
theorem runMeta_untouched (env : CacheEnv) (inc : Bool) (W : Nat) (hfuel dfuel : Nat) :
    ∀ (meta : List (RecId × Option Path)) (ft : Fulltext) (log : List Ev)
      (exts : List (RecId × Path)) (out : Fulltext × List Ev × List (RecId × Path)),
      runMeta env inc W hfuel dfuel meta ft log exts = some out →
      ∀ id, id ∉ meta.map Prod.fst → Dict.getVal out.1 id = Dict.getVal ft id := by
  intro meta
  induction meta with
  | nil =>
    intro ft log exts out h id _
    have h2 : some ((ft, log, exts) : Fulltext × List Ev × List (RecId × Path))
        = some out := h
    injection h2 with h3
    rw [← h3]
  | cons rec rest ih =>
    intro ft log exts out h id hid
    obtain ⟨rid, ridx⟩ := rec
    have hne : rid ≠ id := by
      intro he
      subst he
      exact hid (by simp)
    have hrest : id ∉ rest.map Prod.fst := by
      intro hm
      exact hid (by simp [hm])
    cases ridx with
    | none =>
      simp only [runMeta] at h
      by_cases hk : Dict.hasKey ft rid = true
      · rw [if_pos hk] at h
        have hu := ih (Dict.erase ft rid) _ _ out h id hrest
        rw [hu, Dict.getVal_erase, if_neg hne]
      · rw [if_neg hk] at h
        exact ih ft log exts out h id hrest
    | some index =>
      simp only [runMeta] at h
      by_cases hex : env.indexExists index = false
      · rw [if_pos hex] at h
        by_cases hk : Dict.hasKey ft rid = true
        · rw [if_pos hk] at h
          have hu := ih (Dict.erase ft rid) _ _ out h id hrest
          rw [hu, Dict.getVal_erase, if_neg hne]
        · rw [if_neg hk] at h
          exact ih ft log exts out h id hrest
      · rw [if_neg hex] at h
        rcases hp : processRecord env inc W hfuel dfuel ft rid index with _ | trip
        · rw [hp] at h
          exact Option.noConfusion h
        · obtain ⟨ft3, l3, e3⟩ := trip
          rw [hp] at h
          have h4 : runMeta env inc W hfuel dfuel rest ft3 (log ++ l3) (exts ++ e3)
              = some out := h
          obtain ⟨c, hc⟩ := processRecord_shape env inc W hfuel dfuel ft rid index
            ft3 l3 e3 hp
          have hu := ih ft3 _ _ out h4 id hrest
          rw [hu, hc, Dict.getVal_set, if_neg hne]

/-- The record loop preserves distinctness of the mapping's keys and only
adds keys drawn from the metadata ids. -/
theorem runMeta_keys (env : CacheEnv) (inc : Bool) (W : Nat) (hfuel dfuel : Nat) :
    ∀ (meta : List (RecId × Option Path)) (ft : Fulltext) (log : List Ev)
      (exts : List (RecId × Path)) (out : Fulltext × List Ev × List (RecId × Path)),
      runMeta env inc W hfuel dfuel meta ft log exts = some out →
      ((Dict.keys ft).Nodup → (Dict.keys out.1).Nodup) ∧
      (∀ k, k ∈ Dict.keys out.1 → k ∈ Dict.keys ft ∨ k ∈ meta.map Prod.fst) := by
  intro meta
  induction meta with
  | nil =>
    intro ft log exts out h
    have h2 : some ((ft, log, exts) : Fulltext × List Ev × List (RecId × Path))
        = some out := h
    injection h2 with h3
    rw [← h3]
    exact ⟨fun hn => hn, fun k hk => Or.inl hk⟩
  | cons rec rest ih =>
    intro ft log exts out h
    obtain ⟨rid, ridx⟩ := rec
    have hstep : ∀ ft2 : Fulltext,
        ((Dict.keys ft).Nodup → (Dict.keys ft2).Nodup) →
        (∀ k, k ∈ Dict.keys ft2 → k ∈ Dict.keys ft ∨ k = rid) →
        ∀ log2 exts2,
          runMeta env inc W hfuel dfuel rest ft2 log2 exts2 = some out →
          ((Dict.keys ft).Nodup → (Dict.keys out.1).Nodup) ∧
          (∀ k, k ∈ Dict.keys out.1 → k ∈ Dict.keys ft ∨
            k ∈ ((rid, ridx) :: rest).map Prod.fst) := by
      intro ft2 hnd2 hsub2 log2 exts2 h2
      obtain ⟨ihnd, ihsub⟩ := ih ft2 log2 exts2 out h2
      refine ⟨fun hn => ihnd (hnd2 hn), ?_⟩
      intro k hk
      rcases ihsub k hk with hk2 | hk2
      · rcases hsub2 k hk2 with hk3 | hk3
        · exact Or.inl hk3
        · refine Or.inr ?_
          rw [List.map_cons, hk3]
          exact List.mem_cons_self rid _
      · refine Or.inr ?_
        rw [List.map_cons]
        exact List.mem_cons_of_mem rid hk2
    cases ridx with
    | none =>
      simp only [runMeta] at h
      by_cases hk : Dict.hasKey ft rid = true
      · rw [if_pos hk] at h
        exact hstep (Dict.erase ft rid) (fun hn => Dict.nodup_keys_erase ft rid hn)
          (fun k hk2 => Or.inl (Dict.mem_keys_erase ft rid k hk2)) _ _ h
      · rw [if_neg hk] at h
        exact hstep ft (fun hn => hn) (fun k hk2 => Or.inl hk2) _ _ h
    | some index =>
      simp only [runMeta] at h
      by_cases hex : env.indexExists index = false
      · rw [if_pos hex] at h
        by_cases hk : Dict.hasKey ft rid = true
        · rw [if_pos hk] at h
          exact hstep (Dict.erase ft rid) (fun hn => Dict.nodup_keys_erase ft rid hn)
            (fun k hk2 => Or.inl (Dict.mem_keys_erase ft rid k hk2)) _ _ h
        · rw [if_neg hk] at h
          exact hstep ft (fun hn => hn) (fun k hk2 => Or.inl hk2) _ _ h
      · rw [if_neg hex] at h
        rcases hp : processRecord env inc W hfuel dfuel ft rid index with _ | trip
        · rw [hp] at h
          exact Option.noConfusion h
        · obtain ⟨ft3, l3, e3⟩ := trip
          rw [hp] at h
          obtain ⟨c, hc⟩ := processRecord_shape env inc W hfuel dfuel ft rid index
            ft3 l3 e3 hp
          refine hstep ft3 ?_ ?_ _ _ h
          · intro hn
            rw [hc]
            exact Dict.nodup_keys_set ft rid c hn
          · intro k hk2
            rw [hc] at hk2
            exact Dict.mem_keys_set ft rid c k hk2

/-- Running the record loop establishes `RecordOK` for every processed record
and keeps every inner cache dict duplicate-free. -/
theorem runMeta_establishes (env : CacheEnv) (inc : Bool) (W : Nat) (hfuel dfuel : Nat) :
    ∀ (meta : List (RecId × Option Path)) (ft : Fulltext) (log : List Ev)
      (exts : List (RecId × Path)) (out : Fulltext × List Ev × List (RecId × Path)),
      runMeta env inc W hfuel dfuel meta ft log exts = some out →
      (meta.map Prod.fst).Nodup →
      WFi ft →
      WFi out.1 ∧ ∀ id idxOpt, (id, idxOpt) ∈ meta → RecordOK env dfuel out.1 id idxOpt := by
  intro meta
  induction meta with
  | nil =>
    intro ft log exts out h _ hwfi
    have h2 : some ((ft, log, exts) : Fulltext × List Ev × List (RecId × Path))
        = some out := h
    injection h2 with h3
    rw [← h3]
    exact ⟨hwfi, fun id idxOpt hmem => absurd hmem (by simp)⟩
  | cons rec rest ih =>
    intro ft log exts out h hnd hwfi
    obtain ⟨rid, ridx⟩ := rec
    have hndr : (rest.map Prod.fst).Nodup := by
      rw [List.map_cons] at hnd
      exact hnd.of_cons
    have hnmem : rid ∉ rest.map Prod.fst := by
      rw [List.map_cons] at hnd
      exact (List.nodup_cons.mp hnd).1
    cases ridx with
    | none =>
      simp only [runMeta] at h
      by_cases hk : Dict.hasKey ft rid = true
      · rw [if_pos hk] at h
        have hwfi2 : WFi (Dict.erase ft rid) := by
          intro i c hc
          rw [Dict.getVal_erase] at hc
          by_cases hir : rid = i
          · rw [if_pos hir] at hc
            cases hc
          · rw [if_neg hir] at hc
            exact hwfi i c hc
        obtain ⟨hwfiout, hrest⟩ := ih _ _ _ out h hndr hwfi2
        refine ⟨hwfiout, ?_⟩
        intro i idxOpt hmem
        rcases List.mem_cons.mp hmem with he | hmem2
        · have he1 : i = rid := congrArg Prod.fst he
          have he2 : idxOpt = none := congrArg Prod.snd he
          subst he1
          subst he2
          show Dict.hasKey out.1 i = false
          have hu := runMeta_untouched env inc W hfuel dfuel rest _ _ _ out h i hnmem
          rw [Dict.hasKey_eq_isSome, hu, Dict.getVal_erase, if_pos rfl]
          rfl
        · exact hrest i idxOpt hmem2
      · rw [if_neg hk] at h
        obtain ⟨hwfiout, hrest⟩ := ih _ _ _ out h hndr hwfi
        refine ⟨hwfiout, ?_⟩
        intro i idxOpt hmem
        rcases List.mem_cons.mp hmem with he | hmem2
        · have he1 : i = rid := congrArg Prod.fst he
          have he2 : idxOpt = none := congrArg Prod.snd he
          subst he1
          subst he2
          show Dict.hasKey out.1 i = false
          have hu := runMeta_untouched env inc W hfuel dfuel rest _ _ _ out h i hnmem
          rw [Bool.not_eq_true] at hk
          rw [Dict.hasKey_eq_isSome, hu, (Dict.hasKey_eq_false_iff ft i).mp hk]
          rfl
        · exact hrest i idxOpt hmem2
    | some index =>
      simp only [runMeta] at h
      by_cases hex : env.indexExists index = false
      · rw [if_pos hex] at h
        have hgoal : ∀ ft2 : Fulltext,
            runMeta env inc W hfuel dfuel rest ft2 (if Dict.hasKey ft rid = true
              then log ++ [Ev.removedStale rid] else log) exts = some out →
            Dict.getVal ft2 rid = none → WFi ft2 →
            WFi out.1 ∧ ∀ id idxOpt, (id, idxOpt) ∈ (rid, some index) :: rest →
              RecordOK env dfuel out.1 id idxOpt := by
          intro ft2 h2 hgv hwfi2
          obtain ⟨hwfiout, hrest⟩ := ih _ _ _ out h2 hndr hwfi2
          refine ⟨hwfiout, ?_⟩
          intro i idxOpt hmem
          rcases List.mem_cons.mp hmem with he | hmem2
          · have he1 : i = rid := congrArg Prod.fst he
            have he2 : idxOpt = some index := congrArg Prod.snd he
            subst he1
            subst he2
            simp only [RecordOK]
            rw [if_pos hex]
            have hu := runMeta_untouched env inc W hfuel dfuel rest _ _ _ out h2 i hnmem
            rw [Dict.hasKey_eq_isSome, hu, hgv]
            rfl
          · exact hrest i idxOpt hmem2
        by_cases hk : Dict.hasKey ft rid = true
        · rw [if_pos hk] at h
          refine hgoal (Dict.erase ft rid) ?_ ?_ ?_
          · rw [if_pos hk]
            exact h
          · rw [Dict.getVal_erase, if_pos rfl]
          · intro i c hc
            rw [Dict.getVal_erase] at hc
            by_cases hir : rid = i
            · rw [if_pos hir] at hc
              cases hc
            · rw [if_neg hir] at hc
              exact hwfi i c hc
        · rw [if_neg hk] at h
          refine hgoal ft ?_ ?_ hwfi
          · rw [if_neg hk]
            exact h
          · rw [Bool.not_eq_true] at hk
            exact (Dict.hasKey_eq_false_iff ft rid).mp hk
      · rw [if_neg hex] at h
        rcases hp : processRecord env inc W hfuel dfuel ft rid index with _ | trip
        · rw [hp] at h
          exact Option.noConfusion h
        · obtain ⟨ft3, l3, e3⟩ := trip
          rw [hp] at h
          have h4 : runMeta env inc W hfuel dfuel rest ft3 (log ++ l3) (exts ++ e3)
              = some out := h
          have hnd0 : (Dict.keys ((Dict.getVal ft rid).getD [])).Nodup := by
            rcases hgv : Dict.getVal ft rid with _ | c
            · exact List.nodup_nil
            · exact hwfi rid c hgv
          obtain ⟨cacheF, hft3, hndc, hclauses⟩ :=
            processRecord_establishes env inc W hfuel dfuel ft rid index hnd0 ft3 l3 e3 hp
          have hwfi3 : WFi ft3 := by
            intro i c hc
            rw [hft3, Dict.getVal_set] at hc
            by_cases hir : rid = i
            · rw [if_pos hir] at hc
              injection hc with hc2
              rw [← hc2]
              exact hndc
            · rw [if_neg hir] at hc
              exact hwfi i c hc
          obtain ⟨hwfiout, hrest⟩ := ih _ _ _ out h4 hndr hwfi3
          refine ⟨hwfiout, ?_⟩
          intro i idxOpt hmem
          rcases List.mem_cons.mp hmem with he | hmem2
          · have he1 : i = rid := congrArg Prod.fst he
            have he2 : idxOpt = some index := congrArg Prod.snd he
            subst he1
            subst he2
            simp only [RecordOK]
            rw [if_neg hex]
            have hu := runMeta_untouched env inc W hfuel dfuel rest _ _ _ out h4 i hnmem
            refine ⟨cacheF, ?_, hndc, hclauses⟩
            rw [hu, hft3, Dict.getVal_set, if_pos rfl]
          · exact hrest i idxOpt hmem2

/-- When every record of the metadata satisfies `RecordOK` and every source
file is at most as old as the watermark, the record loop is the identity: the
mapping, the event log and the extraction trace come back unchanged. -/
theorem runMeta2_fixed (env : CacheEnv) (inc : Bool) (W : Nat) (hfuel dfuel : Nat)
    (hsingle : ∀ x, env.isArchive x = false → ∃ q, env.indexPaths x = [q])
    (hm : ∀ x p m, env.mtime x p = some m → m ≤ W)
    (ha : ∀ x, env.isArchive x = true → env.archiveMtime x ≤ W)
    (hd1 : 1 ≤ dfuel) :
    ∀ (meta : List (RecId × Option Path)) (ft : Fulltext) (log : List Ev)
      (exts : List (RecId × Path)),
      (∀ id idxOpt, (id, idxOpt) ∈ meta → RecordOK env dfuel ft id idxOpt) →
      runMeta env inc W hfuel dfuel meta ft log exts = some (ft, log, exts) := by
  intro meta
  induction meta with
  | nil =>
    intro ft log exts _
    rfl
  | cons rec rest ih =>
    intro ft log exts hok
    obtain ⟨rid, ridx⟩ := rec
    cases ridx with
    | none =>
      have hk2 : Dict.hasKey ft rid = false := hok rid none (List.mem_cons_self _ _)
      simp only [runMeta]
      rw [hk2, if_neg (by simp : ¬ (false = true))]
      exact ih ft log exts (fun id idxOpt hmem => hok id idxOpt (List.mem_cons_of_mem _ hmem))
    | some index =>
      simp only [runMeta]
      have hk := hok rid (some index) (List.mem_cons_self _ _)
      by_cases hex : env.indexExists index = false
      · rw [if_pos hex]
        have hk2 : Dict.hasKey ft rid = false := by
          simp only [RecordOK] at hk
          rwa [if_pos hex] at hk
        rw [hk2, if_neg (by simp : ¬ (false = true))]
        exact ih ft log exts (fun id idxOpt hmem => hok id idxOpt (List.mem_cons_of_mem _ hmem))
      · rw [if_neg hex]
        simp only [RecordOK] at hk
        rw [if_neg hex] at hk
        obtain ⟨cacheF, hgv, hndc, hclauses⟩ := hk
        have hhk : Dict.hasKey ft rid = true := by
          rw [Dict.hasKey_eq_isSome, hgv]
          rfl
        have hfix : processRecord env inc W hfuel dfuel ft rid index = some (ft, [], []) := by
          apply processRecord_fixed env inc W hfuel dfuel ft rid index hm ha hhk cacheF hgv
          · intro harc p hp
            obtain ⟨q, hq⟩ := hsingle index harc
            exact (hclauses harc q hq).1 p hp
          · intro harc q hq hmt
            exact (hclauses harc q hq).2.1 hmt
          · exact hsingle index
          · intro harc
            obtain ⟨q, hq⟩ := hsingle index harc
            exact (hclauses harc q hq).2.2 W
          · exact hd1
        rw [hfix]
        show runMeta env inc W hfuel dfuel rest ft (log ++ []) (exts ++ [])
          = some (ft, log, exts)
        rw [List.append_nil, List.append_nil]
        exact ih ft log exts (fun id idxOpt hmem => hok id idxOpt (List.mem_cons_of_mem _ hmem))

/-- Looking a key up after filtering by a key predicate: kept keys read
through, dropped keys read as absent. -/
theorem Dict.getVal_filter_key (f : String → Bool) :
    ∀ (d : Dict α) (k : String),
      Dict.getVal (d.filter (fun p => f p.1)) k
        = if f k = true then Dict.getVal d k else none := by
  intro d
  induction d with
  | nil =>
    intro k
    by_cases h : f k = true <;> simp [Dict.getVal, h]
  | cons p d ih =>
    intro k
    obtain ⟨k2, v⟩ := p
    by_cases hk : k2 = k
    · subst hk
      by_cases hf : f k2 = true
      · simp [List.filter_cons, hf, Dict.getVal]
      · simp [List.filter_cons, hf, Dict.getVal, ih]
    · by_cases hf : f k2 = true
      · simp [List.filter_cons, hf, Dict.getVal, hk, ih]
      · simp [List.filter_cons, hf, Dict.getVal, hk, ih]

/-- Python `d == d` for a well-formed dict whose values are reflexive under
the value comparison. -/
theorem dictEqvBy_self (veq : α → α → Bool) (d : Dict α)
    (hnd : (Dict.keys d).Nodup) (hv : ∀ p, p ∈ d → veq p.2 p.2 = true) :
    dictEqvBy veq d d = true := by
  unfold dictEqvBy
  rw [Bool.and_self, List.all_eq_true]
  intro p hp
  rw [Dict.getVal_of_mem_nodup d p.1 p.2 hnd hp]
  exact hv p hp

/-- Python `==` between a well-formed fulltext mapping and itself. -/
theorem ftEqv_refl (f : Fulltext) (hnd : (Dict.keys f).Nodup) (hwfi : WFi f) :
    ftEqv f f = true := by
  unfold ftEqv
  apply dictEqvBy_self _ f hnd
  intro p hp
  apply dictEqvBy_self
  · exact hwfi p.1 p.2 (Dict.getVal_of_mem_nodup f p.1 p.2 hnd hp)
  · intro r _
    simp

/-- C2: indexer idempotence.  Running the fulltext cache generation a second
time with no change to the underlying files (every source and archive mtime
is at most the second run's watermark, as they are untouched since the first
run wrote the cache) returns the first run's mapping unchanged, takes the
touch branch instead of save (`saved = false` because the post-run mapping
equals the pre-run snapshot), logs no event and extracts nothing.
Hypotheses: distinct record ids, a well-formed initial mapping, each index
file contributing a single index path, and enough drain fuel. -/
theorem c2_indexer_idempotence (env : CacheEnv) (inc : Bool) (W1 W2 : Nat)
    (meta : List (RecId × Option Path)) (ft0 : Fulltext) (hfuel dfuel : Nat)
    (r1 : RunOut)
    (hndmeta : (meta.map Prod.fst).Nodup)
    (hnd0 : (Dict.keys ft0).Nodup)
    (hwfi0 : WFi ft0)
    (hsingle : ∀ x, env.isArchive x = false → ∃ q, env.indexPaths x = [q])
    (hm : ∀ x p m, env.mtime x p = some m → m ≤ W2)
    (ha : ∀ x, env.isArchive x = true → env.archiveMtime x ≤ W2)
    (hd1 : 1 ≤ dfuel)
    (h1 : runGen env inc W1 meta ft0 hfuel dfuel = some r1) :
    runGen env inc W2 meta r1.ft hfuel dfuel = some ⟨r1.ft, false, [], []⟩ := by
  simp only [runGen] at h1
  rcases hmr : runMeta env inc W1 hfuel dfuel meta
      (ft0.filter (fun p => (meta.map Prod.fst).contains p.1))
      ((ft0.filter (fun p => !(meta.map Prod.fst).contains p.1)).map
        (fun p => Ev.removedStale p.1)) [] with _ | out1
  · rw [hmr] at h1
    exact Option.noConfusion h1
  · rw [hmr] at h1
    obtain ⟨ftF, logF, extsF⟩ := out1
    have h2 : some (⟨ftF, !(ftEqv ftF ft0), logF, extsF⟩ : RunOut) = some r1 := h1
    injection h2 with h3
    have hft : r1.ft = ftF := by rw [← h3]
    rw [hft]
    have hndA : (Dict.keys (ft0.filter (fun p => (meta.map Prod.fst).contains p.1))).Nodup := by
      show (List.map Prod.fst (ft0.filter (fun p => (meta.map Prod.fst).contains p.1))).Nodup
      exact List.Nodup.sublist ((List.filter_sublist ft0).map Prod.fst) hnd0
    have hwfiA : WFi (ft0.filter (fun p => (meta.map Prod.fst).contains p.1)) := by
      intro i c hc
      rw [Dict.getVal_filter_key] at hc
      by_cases hct : (meta.map Prod.fst).contains i = true
      · rw [if_pos hct] at hc
        exact hwfi0 i c hc
      · rw [if_neg hct] at hc
        cases hc
    obtain ⟨hwfiF, hok⟩ := runMeta_establishes env inc W1 hfuel dfuel meta _ _ _
      (ftF, logF, extsF) hmr hndmeta hwfiA
    obtain ⟨hndF1, hsubF⟩ := runMeta_keys env inc W1 hfuel dfuel meta _ _ _
      (ftF, logF, extsF) hmr
    have hndF : (Dict.keys ftF).Nodup := hndF1 hndA
    have hsubF2 : ∀ k, k ∈ Dict.keys ftF → k ∈ meta.map Prod.fst := by
      intro k hk
      rcases hsubF k hk with hk2 | hk2
      · rw [Dict.keys, List.mem_map] at hk2
        obtain ⟨p, hp, hpk⟩ := hk2
        have hpr := List.of_mem_filter hp
        rw [← hpk]
        exact List.elem_iff.mp hpr
      · exact hk2
    simp only [runGen]
    have hkeep : ∀ p, p ∈ ftF → (meta.map Prod.fst).contains p.1 = true := by
      intro p hp
      exact List.elem_iff.mpr (hsubF2 p.1 (by
        rw [Dict.keys, List.mem_map]
        exact ⟨p, hp, rfl⟩))
    have hrem : ftF.filter (fun p => !(meta.map Prod.fst).contains p.1) = [] := by
      rw [List.filter_eq_nil_iff]
      intro p hp
      rw [hkeep p hp]
      simp
    have hkeepeq : ftF.filter (fun p => (meta.map Prod.fst).contains p.1) = ftF :=
      List.filter_eq_self.mpr (fun p hp => hkeep p hp)
    rw [hrem, hkeepeq, List.map_nil]
    have hmr2 : runMeta env inc W2 hfuel dfuel meta ftF [] [] = some (ftF, [], []) :=
      runMeta2_fixed env inc W2 hfuel dfuel hsingle hm ha hd1 meta ftF [] []
        (fun id idxOpt hmem => hok id idxOpt hmem)
    rw [hmr2]
    show some (⟨ftF, !(ftEqv ftF ftF), [], []⟩ : RunOut) = some ⟨ftF, false, [], []⟩
    rw [ftEqv_refl ftF hndF hwfiF]
    rfl

/-- Witness environment for C2: one record whose index file `i.html` is a
text page with mtime 3. -/
def c2wEnv : CacheEnv where
  indexExists := fun x => x == "i.html"
  isArchive := fun _ => false
  archiveMtime := fun _ => 0
  indexPaths := fun x => [x]
  mtime := fun _ p => if p == "i.html" then some 3 else none
  page := fun _ _ => .doc (.txtDoc "hello world")

/-- C2 witness: after a first run from an empty mapping cached `i.html`
(`saved = true`, a `creating` event, one extraction), a second run with
watermark 5 returns the same mapping with `saved = false`, no event and no
extraction. -/
theorem c2_indexer_idempotence_witness :
    runGen c2wEnv false 5 [("r1", some "i.html")]
      (RunOut.mk [("r1", [("i.html", "hello world")])] true
        [Ev.creating "r1"] [("r1", "i.html")]).ft 4 3
      = some ⟨(RunOut.mk [("r1", [("i.html", "hello world")])] true
          [Ev.creating "r1"] [("r1", "i.html")]).ft, false, [], []⟩ :=
  c2_indexer_idempotence c2wEnv false 0 5 [("r1", some "i.html")] [] 4 3
    (RunOut.mk [("r1", [("i.html", "hello world")])] true
      [Ev.creating "r1"] [("r1", "i.html")])
    (by decide) (by decide)
    (fun i c h => Option.noConfusion h)
    (fun x _ => ⟨x, rfl⟩)
    (by
      intro x p m h
      simp only [c2wEnv] at h
      by_cases hp : (p == "i.html") = true
      · rw [if_pos hp] at h
        injection h with h2
        omega
      · rw [if_neg hp] at h
        exact Option.noConfusion h)
    (fun x h => Bool.noConfusion h)
    (by decide)
    (by decide)

end PyWSB
